import Mathlib

/-!
Verification development for the minesweeper engine in `minesweeper.py`.

The Python class `MineSweeper` is shallowly embedded here:

* grids (`mines`, `board`, `covered`, all numpy `int8` arrays) are
  `List (List Int)` in row-major order, together with the stored shape
  `(size0, size1)`;
* `reveal` is recursive with an effect on the object; it is embedded as a
  fuel-indexed state-passing function `revealGo` returning the new board and
  the integer result code; the fuel only bounds the recursion depth and is
  shown irrelevant once it reaches the number of covered cells;
* `__init__` computes the hint grid by a 1-D convolution with `[1,1,1]`
  (mode `same`) over every row and then over every column; `conv3same`
  reproduces numpy's semantics including the output length `max n 3`, and
  `initBoard` reproduces the shape check of the numpy row assignment (so a
  board with a dimension of 1 or 2 fails to construct, as the Python does);
* `fromdimensions` takes the indices drawn by `np.random.choice` as an
  explicit argument `sample` (an injected sampler);
* all grid reads go through `getO oob`, where `oob` is the value an
  out-of-range read would produce; theorems show the results never depend
  on `oob` because every read is behind the bounds guard.
-/

inductive GameState where
  | in_progress : GameState
  | win : GameState
  | failure : GameState
deriving DecidableEq, Repr

/-- Read a list at a signed index, with value 0 outside the list
(the zero padding of the convolution). -/
def getZ (l : List Int) (i : Int) : Int :=
  if 0 ≤ i then l.getD i.toNat 0 else 0

/-- Read a grid at signed indices; `d` is the value produced by a read
outside the grid. -/
def getO (d : Int) (g : List (List Int)) (r c : Int) : Int :=
  if 0 ≤ r ∧ 0 ≤ c then (g.getD r.toNat []).getD c.toNat d else d

/-- Write a grid cell at signed indices (no effect outside the grid). -/
def setCell (g : List (List Int)) (r c : Int) (v : Int) : List (List Int) :=
  if 0 ≤ r ∧ 0 ≤ c then g.set r.toNat ((g.getD r.toNat []).set c.toNat v) else g

/-- The state of a `MineSweeper` object. -/
structure Board where
  size0 : Nat
  size1 : Nat
  mines : List (List Int)
  board : List (List Int)
  covered : List (List Int)
  num_mines : Int
  num_covered : Int
  game_state : GameState
deriving DecidableEq, Repr

/-- The eight neighbour coordinates, in the order the source visits them. -/
def nbrs (r c : Int) : List (Int × Int) :=
  [(r-1, c-1), (r-1, c), (r-1, c+1), (r, c-1), (r, c+1), (r+1, c-1), (r+1, c), (r+1, c+1)]

/-- Lines 88-89: mark the cell uncovered and decrement the counter. -/
def uncoverB (b : Board) (r c : Int) : Board :=
  { b with covered := setCell b.covered r c 0, num_covered := b.num_covered - 1 }

/-- Lines 90-91: set the state to `win` when the covered counter has
reached the mine counter. -/
def winCheck (b : Board) : Board :=
  if b.num_covered = b.num_mines then { b with game_state := GameState.win } else b

/-- `MineSweeper.reveal`, embedded with explicit fuel: the guard (line 85),
the uncover and counter update (lines 88-91), the mine branch (93-95), the
cascade over the eight neighbours (97-105) and the return codes. -/
def revealGo (oob : Int) : Nat → Board → Int → Int → Board × Int
  | 0, b, _, _ => (b, -1)
  | fuel+1, b, r, c =>
    if r < 0 ∨ (b.size0 : Int) ≤ r ∨ c < 0 ∨ (b.size1 : Int) ≤ c then (b, -1)
    else if getO oob b.covered r c = 0 then (b, -1)
    else if getO oob b.mines r c ≠ 0 then
      ({ winCheck (uncoverB b r c) with game_state := GameState.failure }, 0)
    else if getO oob b.board r c = 0 then
      ((nbrs r c).foldl (fun s p => (revealGo oob fuel s p.1 p.2).1)
        (winCheck (uncoverB b r c)), 1)
    else (winCheck (uncoverB b r c), 1)

/-- `reveal` with the canonical fuel `rows * cols` (enough for any
reachable board state, as proved below). -/
def reveal (b : Board) (r c : Int) : Board × Int :=
  revealGo 0 (b.size0 * b.size1) b r c

/-- `MineSweeper.getstate`. -/
def getstate (b : Board) : GameState := b.game_state

/-- `MineSweeper.getsquare`, with explicit out-of-range read value. -/
def getsquareO (oob : Int) (b : Board) (r c : Int) : Int :=
  if r < 0 ∨ (b.size0 : Int) ≤ r ∨ c < 0 ∨ (b.size1 : Int) ≤ c then -3
  else if getO oob b.covered r c ≠ 0 then -1
  else if getO oob b.mines r c ≠ 0 then -2
  else getO oob b.board r c

/-- `MineSweeper.getsquare`. -/
def getsquare (b : Board) (r c : Int) : Int := getsquareO 0 b r c

/-- `np.asarray(mines > 0, dtype=np.int8)`. -/
def minesNorm (data : List (List Int)) : List (List Int) :=
  data.map (fun row => row.map (fun x => if 0 < x then 1 else 0))

/-- `np.sum` over a 2-D array. -/
def sumGrid (g : List (List Int)) : Int := (g.map (fun row => row.sum)).sum

/-- Column `c` of a grid, as read by `self.board[:, c]`. -/
def colOf (g : List (List Int)) (c : Nat) : List Int := g.map (fun row => row.getD c 0)

/-- `np.convolve(a, [1, 1, 1], 'same')`: entry `i` is the window sum
`a[i+s-2] + a[i+s-1] + a[i+s]` with zero padding, output length
`max a.length 3` and centring shift `s = (min a.length 3 - 1) / 2`
(numpy swaps the arguments when the kernel is the longer one). -/
def conv3same (a : List Int) : List Int :=
  let s : Nat := (min a.length 3 - 1) / 2
  (List.range (max a.length 3)).map
    (fun (i : Nat) => getZ a ((i : Int) + (s : Int) - 2) + getZ a ((i : Int) + (s : Int) - 1) +
              getZ a ((i : Int) + (s : Int)))

/-- `MineSweeper.__init__` on a mine array of shape `(rows, cols)`.
The two `if` checks after the rectangularity requirement model the numpy
broadcast checks of `self.board[r, :] = ...` and `self.board[:, c] = ...`:
assigning a convolution result of the wrong length raises in Python, and
yields `none` here. -/
def initBoard (rows cols : Nat) (data : List (List Int)) : Option Board :=
  if data.length = rows ∧ (∀ row ∈ data, row.length = cols) then
    let m := minesNorm data
    let b1 := m.map conv3same
    if ∀ row ∈ b1, row.length = cols then
      if ∀ c ∈ List.range cols, (conv3same (colOf b1 c)).length = rows then
        some { size0 := rows, size1 := cols, mines := m,
               board := (List.range rows).map
                 (fun r => (List.range cols).map
                   (fun c => (conv3same (colOf b1 c)).getD r 0)),
               covered := (List.range rows).map
                 (fun _ => (List.range cols).map (fun _ => (1 : Int))),
               num_mines := sumGrid m,
               num_covered := ((rows * cols : Nat) : Int),
               game_state := GameState.in_progress }
      else none
    else none
  else none

/-- Write a grid cell at unsigned indices (no effect outside the grid). -/
def setCellN (g : List (List Int)) (r c : Nat) (v : Int) : List (List Int) :=
  g.set r ((g.getD r []).set c v)

/-- `MineSweeper.fromdimensions`: `np.zeros(board_dims)` rejects negative
dimensions; `np.random.choice(rows*cols, num_mines, replace=False)` rejects a
negative or too large `num_mines` and otherwise yields `sample`, a list of
distinct cell indices, placed at `(i / cols, i % cols)`. -/
def fromdimensions (rows cols num_mines : Int) (sample : List Nat) : Option Board :=
  if rows < 0 ∨ cols < 0 then none
  else if num_mines < 0 ∨ rows * cols < num_mines then none
  else
    let C := cols.toNat
    let zerosG := (List.range rows.toNat).map (fun _ => (List.range C).map (fun _ => (0 : Int)))
    initBoard rows.toNat C (sample.foldl (fun g i => setCellN g (i / C) (i % C) 1) zerosG)

/-- Fallback board (only used to extract from an `Option`). -/
def emptyBoard : Board :=
  { size0 := 0, size1 := 0, mines := [], board := [], covered := [],
    num_mines := 0, num_covered := 0, game_state := GameState.in_progress }

/-- In-bounds predicate of the reveal guard. -/
def inB (b : Board) (r c : Int) : Prop :=
  0 ≤ r ∧ r < (b.size0 : Int) ∧ 0 ≤ c ∧ c < (b.size1 : Int)

instance (b : Board) (r c : Int) : Decidable (inB b r c) := by
  unfold inB; infer_instance

/-- A grid has exactly the given rectangular shape. -/
def Rect (g : List (List Int)) (rows cols : Nat) : Prop :=
  g.length = rows ∧ ∀ row ∈ g, row.length = cols

instance (g : List (List Int)) (rows cols : Nat) : Decidable (Rect g rows cols) := by
  unfold Rect; infer_instance

/-- Every entry of the grid is 0 or 1. -/
def Vals01 (g : List (List Int)) : Prop := ∀ row ∈ g, ∀ x ∈ row, x = 0 ∨ x = 1

instance (g : List (List Int)) : Decidable (Vals01 g) := by
  unfold Vals01; infer_instance

/-- Number of nonzero (covered) entries of a grid. -/
def ccountG (g : List (List Int)) : Nat :=
  (g.map (fun row => row.countP (fun x => x != 0))).sum

/-- Sum of the 3x3 window of a grid centred at `(r, c)`, zero outside the
grid: the value of the two-pass convolution of `__init__`. -/
def windowSum (m : List (List Int)) (r c : Int) : Int :=
  getO 0 m (r-1) (c-1) + getO 0 m (r-1) c + getO 0 m (r-1) (c+1) +
  getO 0 m r (c-1) + getO 0 m r c + getO 0 m r (c+1) +
  getO 0 m (r+1) (c-1) + getO 0 m (r+1) c + getO 0 m (r+1) (c+1)

/-- Sum of the mine indicators over the 8-neighbourhood clipped to the grid
(the 3x3 window without its centre). -/
def adj8 (m : List (List Int)) (r c : Int) : Int :=
  getO 0 m (r-1) (c-1) + getO 0 m (r-1) c + getO 0 m (r-1) (c+1) +
  getO 0 m r (c-1) + getO 0 m r (c+1) +
  getO 0 m (r+1) (c-1) + getO 0 m (r+1) c + getO 0 m (r+1) (c+1)

/-- Well-formed board state: shapes agree with the stored size, `mines` and
`covered` are 0/1 grids, the counters track the grids, and `board` holds the
self-inclusive 3x3 window sums of `mines`. Every board produced by
`initBoard` satisfies this, and `reveal` preserves it. -/
def WF (b : Board) : Prop :=
  Rect b.mines b.size0 b.size1 ∧ Rect b.board b.size0 b.size1 ∧
  Rect b.covered b.size0 b.size1 ∧
  Vals01 b.mines ∧ Vals01 b.covered ∧
  b.num_covered = (ccountG b.covered : Int) ∧
  b.num_mines = (ccountG b.mines : Int) ∧
  (∀ r, r < b.size0 → ∀ c, c < b.size1 →
    getO 0 b.board (r : Int) (c : Int) = windowSum b.mines (r : Int) (c : Int))

instance (b : Board) : Decidable (WF b) := by
  unfold WF; infer_instance

/-- Closure of the covered grid up to a debt list `S`: every uncovered
zero-hint cell has each of its in-bounds neighbours uncovered, unless that
neighbour is in `S`. Cascade re-establishes this after discharging `S`. -/
def ClosedExcept (b : Board) (S : List (Int × Int)) : Prop :=
  ∀ r, r < b.size0 → ∀ c, c < b.size1 →
    getO 0 b.covered (r : Int) (c : Int) = 0 → getO 0 b.board (r : Int) (c : Int) = 0 →
    ∀ p ∈ nbrs (r : Int) (c : Int), inB b p.1 p.2 →
      getO 0 b.covered p.1 p.2 = 0 ∨ p ∈ S

instance (b : Board) (S : List (Int × Int)) : Decidable (ClosedExcept b S) := by
  unfold ClosedExcept
  exact @Nat.decidableBallLT _ _ fun r hr => @Nat.decidableBallLT _ _ fun c hc => inferInstance

/-- Every uncovered zero-hint cell has all its in-bounds neighbours
uncovered. Holds for a fresh board and is preserved by `reveal`. -/
def Closed (b : Board) : Prop := ClosedExcept b []

instance (b : Board) : Decidable (Closed b) := by
  unfold Closed; infer_instance

/-- The connected zero-hint region: `ReachZ b z p` holds when `p` is
reachable from `z` through a chain of 8-adjacent, in-bounds cells whose
hint is 0 (including `z` itself, which must be a zero-hint cell). -/
inductive ReachZ (b : Board) (z : Int × Int) : Int × Int → Prop
  | refl : inB b z.1 z.2 → getO 0 b.board z.1 z.2 = 0 → ReachZ b z z
  | step (p q : Int × Int) : ReachZ b z p → q ∈ nbrs p.1 p.2 → inB b q.1 q.2 →
      getO 0 b.board q.1 q.2 = 0 → ReachZ b z q

/-- The cells a reveal at `z` may touch: `z` itself and every neighbour of
the zero-hint region of `z`. -/
def Touched (b : Board) (z p : Int × Int) : Prop :=
  p = z ∨ ∃ q, ReachZ b z q ∧ p ∈ nbrs q.1 q.2

/-- The part of `WF` that the covered-count bookkeeping needs. -/
def CovInv (b : Board) : Prop :=
  Rect b.covered b.size0 b.size1 ∧ Vals01 b.covered ∧
  b.num_covered = (ccountG b.covered : Int)

instance (b : Board) : Decidable (CovInv b) := by
  unfold CovInv; infer_instance

/-- Mine layout of the 3x3 example board with a single mine at `(0, 0)`. -/
def cexMines : List (List Int) := [[1, 0, 0], [0, 0, 0], [0, 0, 0]]

/-- The 3x3 example board with a single mine at `(0, 0)`. -/
def cexBoard : Board := (initBoard 3 3 cexMines).getD emptyBoard

/-- Mine layout of a 3x3 board that is all mines except the centre. -/
def cexMines2 : List (List Int) := [[1, 1, 1], [1, 0, 1], [1, 1, 1]]

/-- A 3x3 board that is all mines except the centre: its only safe cell is
`(1, 1)`, so one reveal there is the whole game. -/
def cexBoard2 : Board := (initBoard 3 3 cexMines2).getD emptyBoard

/-! ### List-level lemmas -/

theorem list_getD_set_self {α : Type} (l : List α) (i : Nat) (v d : α)
    (h : i < l.length) : (l.set i v).getD i d = v := by
  simp [List.getD_eq_getElem?_getD, List.getElem?_set, h]

theorem list_getD_set_ne {α : Type} (l : List α) (i j : Nat) (v d : α)
    (h : i ≠ j) : (l.set i v).getD j d = l.getD j d := by
  simp [List.getD_eq_getElem?_getD, List.getElem?_set, h]

theorem list_getD_irrel {α : Type} (l : List α) (i : Nat) (d d' : α)
    (h : i < l.length) : l.getD i d = l.getD i d' := by
  rw [List.getD_eq_getElem l d h, List.getD_eq_getElem l d' h]

theorem list_getD_default {α : Type} (l : List α) (i : Nat) (d : α)
    (h : l.length ≤ i) : l.getD i d = d := by
  simp [List.getD_eq_getElem?_getD, List.getElem?_eq_none, h]

theorem countP_set_le (p : Int → Bool) (v : Int) (hv : p v = false) :
    ∀ (l : List Int) (j : Nat), (l.set j v).countP p ≤ l.countP p := by
  intro l
  induction l with
  | nil => intro j; simp
  | cons a t ih =>
    intro j
    cases j with
    | zero => simp [List.countP_cons, hv]
    | succ n =>
      simp only [List.set, List.countP_cons]
      exact Nat.add_le_add_right (ih n) _

theorem countP_set_dec (p : Int → Bool) (v d : Int) (hv : p v = false) :
    ∀ (l : List Int) (j : Nat), j < l.length → p (l.getD j d) = true →
      (l.set j v).countP p + 1 = l.countP p := by
  intro l
  induction l with
  | nil => intro j h; simp at h
  | cons a t ih =>
    intro j hj hp
    cases j with
    | zero =>
      simp only [List.getD_cons_zero] at hp
      simp [List.countP_cons, hv, hp, Nat.add_comm]
    | succ n =>
      simp only [List.getD_cons_succ] at hp
      have hn : n < t.length := by simpa using hj
      have h2 := ih n hn hp
      simp only [List.set, List.countP_cons]
      omega

theorem nat_sum_set (l : List Nat) (j : Nat) (x : Nat) (h : j < l.length) :
    (l.set j x).sum + l.getD j 0 = l.sum + x := by
  induction l generalizing j with
  | nil => simp at h
  | cons a t ih =>
    cases j with
    | zero => simp [List.sum_cons]; omega
    | succ n =>
      have hn : n < t.length := by simpa using h
      have h2 := ih n hn
      simp only [List.set, List.sum_cons, List.getD_cons_succ]
      omega

theorem nat_sum_set_le (l : List Nat) (j : Nat) (x : Nat)
    (hx : x ≤ l.getD j 0) : (l.set j x).sum ≤ l.sum := by
  by_cases h : j < l.length
  · have h2 := nat_sum_set l j x h
    omega
  · rw [List.set_eq_of_length_le (by omega)]

theorem int_sum_set (l : List Int) (j : Nat) (x : Int) (h : j < l.length) :
    (l.set j x).sum + l.getD j 0 = l.sum + x := by
  induction l generalizing j with
  | nil => simp at h
  | cons a t ih =>
    cases j with
    | zero => simp [List.sum_cons]; ring
    | succ n =>
      have hn : n < t.length := by simpa using h
      have h2 := ih n hn
      simp only [List.set, List.sum_cons, List.getD_cons_succ]
      omega

theorem nat_sum_le_mul (m : Nat) : ∀ (l : List Nat), (∀ x ∈ l, x ≤ m) →
    l.sum ≤ l.length * m := by
  intro l
  induction l with
  | nil => simp
  | cons a t ih =>
    intro h
    have ha := h a (by simp)
    have ht := ih (fun x hx => h x (by simp [hx]))
    simp only [List.sum_cons, List.length_cons]
    calc a + t.sum ≤ m + t.length * m := by omega
    _ = (t.length + 1) * m := by ring

/-! ### Grid-level lemmas -/

theorem getD_row_mem {α : Type} (g : List α) (i : Nat) (d : α) (hi : i < g.length) :
    g.getD i d ∈ g := by
  rw [List.getD_eq_getElem g d hi]
  exact List.getElem_mem hi

theorem rect_row_len (g : List (List Int)) (rows cols : Nat) (hg : Rect g rows cols)
    (i : Nat) (hi : i < rows) : (g.getD i []).length = cols := by
  obtain ⟨hlen, hrow⟩ := hg
  exact hrow _ (getD_row_mem g i [] (by omega))

theorem getO_neg (d : Int) (g : List (List Int)) (r c : Int)
    (h : ¬(0 ≤ r ∧ 0 ≤ c)) : getO d g r c = d := by
  unfold getO
  rw [if_neg h]

theorem getO_pos (d : Int) (g : List (List Int)) (r c : Int) (h0 : 0 ≤ r) (h2 : 0 ≤ c) :
    getO d g r c = (g.getD r.toNat []).getD c.toNat d := by
  unfold getO
  rw [if_pos ⟨h0, h2⟩]

theorem getO_irrel (d d' : Int) (g : List (List Int)) (rows cols : Nat) (r c : Int)
    (hg : Rect g rows cols) (h0 : 0 ≤ r) (h1 : r < (rows : Int))
    (h2 : 0 ≤ c) (h3 : c < (cols : Int)) : getO d g r c = getO d' g r c := by
  rw [getO_pos d g r c h0 h2, getO_pos d' g r c h0 h2]
  have hr : r.toNat < g.length := by rw [hg.1]; omega
  have hc : c.toNat < (g.getD r.toNat []).length := by
    rw [rect_row_len g rows cols hg r.toNat (by omega)]; omega
  exact list_getD_irrel _ _ _ _ hc

theorem setCell_neg (g : List (List Int)) (r c v : Int) (h : ¬(0 ≤ r ∧ 0 ≤ c)) :
    setCell g r c v = g := by
  unfold setCell
  rw [if_neg h]

theorem getO_setCell_self (g : List (List Int)) (rows cols : Nat) (r c : Int) (v d : Int)
    (hg : Rect g rows cols) (h0 : 0 ≤ r) (h1 : r < (rows : Int))
    (h2 : 0 ≤ c) (h3 : c < (cols : Int)) : getO d (setCell g r c v) r c = v := by
  unfold setCell
  rw [if_pos ⟨h0, h2⟩, getO_pos d _ r c h0 h2]
  have hr : r.toNat < g.length := by rw [hg.1]; omega
  have hc : c.toNat < (g.getD r.toNat []).length := by
    rw [rect_row_len g rows cols hg r.toNat (by omega)]; omega
  rw [list_getD_set_self g r.toNat _ [] hr]
  exact list_getD_set_self _ c.toNat v d hc

theorem getO_setCell_ne (g : List (List Int)) (r c r' c' v d : Int)
    (hne : ¬(r' = r ∧ c' = c)) : getO d (setCell g r c v) r' c' = getO d g r' c' := by
  unfold setCell
  by_cases hrc : 0 ≤ r ∧ 0 ≤ c
  · rw [if_pos hrc]
    by_cases hrc' : 0 ≤ r' ∧ 0 ≤ c'
    · rw [getO_pos d _ r' c' hrc'.1 hrc'.2, getO_pos d g r' c' hrc'.1 hrc'.2]
      by_cases hrr : r'.toNat = r.toNat
      · have hr' : r' = r := by omega
        subst hr'
        have hc' : c' ≠ c := fun h => hne ⟨rfl, h⟩
        have hcc : c.toNat ≠ c'.toNat := by omega
        by_cases hlen : r'.toNat < g.length
        · rw [list_getD_set_self g r'.toNat _ [] hlen]
          exact list_getD_set_ne _ c.toNat c'.toNat v d hcc
        · rw [List.set_eq_of_length_le (by omega)]
      · rw [list_getD_set_ne g r.toNat r'.toNat _ [] (fun h => hrr h.symm)]
    · rw [getO_neg d _ r' c' hrc', getO_neg d g r' c' hrc']
  · rw [if_neg hrc]

theorem rect_setCell (g : List (List Int)) (rows cols : Nat) (r c v : Int)
    (hg : Rect g rows cols) : Rect (setCell g r c v) rows cols := by
  unfold setCell
  by_cases hrc : 0 ≤ r ∧ 0 ≤ c
  · rw [if_pos hrc]
    by_cases hr : r.toNat < g.length
    · refine ⟨by simpa using hg.1, ?_⟩
      intro row hmem
      rcases List.mem_or_eq_of_mem_set hmem with h | h
      · exact hg.2 _ h
      · subst h
        rw [List.length_set]
        exact rect_row_len g rows cols hg r.toNat (by rw [← hg.1]; omega)
    · rw [List.set_eq_of_length_le (by omega)]
      exact hg
  · rw [if_neg hrc]
    exact hg

theorem vals01_setCell (g : List (List Int)) (r c v : Int)
    (hg : Vals01 g) (hv : v = 0 ∨ v = 1) : Vals01 (setCell g r c v) := by
  unfold setCell
  by_cases hrc : 0 ≤ r ∧ 0 ≤ c
  · rw [if_pos hrc]
    intro row hmem x hx
    rcases List.mem_or_eq_of_mem_set hmem with h | h
    · exact hg _ h _ hx
    · subst h
      rcases List.mem_or_eq_of_mem_set hx with h2 | h2
      · by_cases hr : r.toNat < g.length
        · exact hg _ (getD_row_mem g r.toNat [] hr) _ h2
        · rw [list_getD_default g r.toNat [] (by omega)] at h2
          simp at h2
      · subst h2
        exact hv
  · rw [if_neg hrc]
    exact hg

theorem getD_map_count (f : List Int → Nat) (g : List (List Int)) (i : Nat)
    (hi : i < g.length) : (g.map f).getD i 0 = f (g.getD i []) := by
  rw [List.getD_eq_getElem _ _ (by simpa using hi), List.getD_eq_getElem _ _ hi]
  simp

theorem ccountG_setCell_le (g : List (List Int)) (r c : Int) :
    ccountG (setCell g r c 0) ≤ ccountG g := by
  unfold setCell
  by_cases hrc : 0 ≤ r ∧ 0 ≤ c
  · rw [if_pos hrc]
    unfold ccountG
    rw [List.map_set]
    apply nat_sum_set_le
    by_cases hr : r.toNat < g.length
    · rw [getD_map_count _ g r.toNat hr]
      exact countP_set_le _ 0 (by decide) _ _
    · rw [list_getD_default g r.toNat [] (by omega)]
      simp
  · rw [if_neg hrc]

theorem ccountG_setCell_dec (g : List (List Int)) (rows cols : Nat) (r c : Int)
    (hg : Rect g rows cols) (h0 : 0 ≤ r) (h1 : r < (rows : Int))
    (h2 : 0 ≤ c) (h3 : c < (cols : Int)) (hnz : getO 0 g r c ≠ 0) :
    ccountG (setCell g r c 0) + 1 = ccountG g := by
  unfold setCell
  rw [if_pos ⟨h0, h2⟩]
  unfold ccountG
  rw [List.map_set]
  have hr : r.toNat < g.length := by rw [hg.1]; omega
  have hc : c.toNat < (g.getD r.toNat []).length := by
    rw [rect_row_len g rows cols hg r.toNat (by omega)]; omega
  rw [getO_pos 0 g r c h0 h2] at hnz
  have hdec := countP_set_dec (fun x => x != 0) 0 0 (by decide) (g.getD r.toNat []) c.toNat hc
    (by simpa [bne_iff_ne] using hnz)
  have hsum := nat_sum_set (g.map (fun row => row.countP (fun x => x != 0))) r.toNat
    (((g.getD r.toNat []).set c.toNat 0).countP (fun x => x != 0)) (by simpa using hr)
  rw [getD_map_count _ g r.toNat hr] at hsum
  omega

theorem ccountG_le (g : List (List Int)) (rows cols : Nat) (hg : Rect g rows cols) :
    ccountG g ≤ rows * cols := by
  unfold ccountG
  have hb : ∀ x ∈ g.map (fun row => row.countP (fun y => y != 0)), x ≤ cols := by
    intro x hx
    rcases List.mem_map.1 hx with ⟨row, hrow, rfl⟩
    calc row.countP (fun y => y != 0) ≤ row.length := List.countP_le_length _
    _ = cols := hg.2 _ hrow
  have := nat_sum_le_mul cols _ hb
  simpa [hg.1] using this

theorem ccountG_zero (g : List (List Int)) (rows cols : Nat) (d : Int) (r c : Int)
    (hg : Rect g rows cols) (hz : ccountG g = 0) (h0 : 0 ≤ r) (h1 : r < (rows : Int))
    (h2 : 0 ≤ c) (h3 : c < (cols : Int)) : getO d g r c = 0 := by
  rw [getO_pos d g r c h0 h2]
  have hr : r.toNat < g.length := by rw [hg.1]; omega
  have hc : c.toNat < (g.getD r.toNat []).length := by
    rw [rect_row_len g rows cols hg r.toNat (by omega)]; omega
  have hcount : (g.getD r.toNat []).countP (fun x => x != 0) = 0 := by
    have hmem : (g.getD r.toNat []).countP (fun x => x != 0) ∈
        g.map (fun row => row.countP (fun x => x != 0)) :=
      List.mem_map.2 ⟨_, getD_row_mem g r.toNat [] hr, rfl⟩
    exact List.sum_eq_zero_iff.1 hz _ hmem
  have := List.countP_eq_zero.1 hcount _ (getD_row_mem _ c.toNat d hc)
  simpa [bne_iff_ne] using this

/-! ### Unfolding and field lemmas for the reveal engine -/

theorem revealGo_zero (oob : Int) (b : Board) (r c : Int) :
    revealGo oob 0 b r c = (b, -1) := rfl

theorem revealGo_succ (oob : Int) (fuel : Nat) (b : Board) (r c : Int) :
    revealGo oob (fuel+1) b r c =
    if r < 0 ∨ (b.size0 : Int) ≤ r ∨ c < 0 ∨ (b.size1 : Int) ≤ c then (b, -1)
    else if getO oob b.covered r c = 0 then (b, -1)
    else if getO oob b.mines r c ≠ 0 then
      ({ winCheck (uncoverB b r c) with game_state := GameState.failure }, 0)
    else if getO oob b.board r c = 0 then
      ((nbrs r c).foldl (fun s p => (revealGo oob fuel s p.1 p.2).1)
        (winCheck (uncoverB b r c)), 1)
    else (winCheck (uncoverB b r c), 1) := rfl

theorem inB_iff (b : Board) (r c : Int) :
    inB b r c ↔ ¬(r < 0 ∨ (b.size0 : Int) ≤ r ∨ c < 0 ∨ (b.size1 : Int) ≤ c) := by
  unfold inB
  omega

theorem winCheck_fields (b : Board) :
    (winCheck b).covered = b.covered ∧ (winCheck b).num_covered = b.num_covered ∧
    (winCheck b).mines = b.mines ∧ (winCheck b).board = b.board ∧
    (winCheck b).size0 = b.size0 ∧ (winCheck b).size1 = b.size1 ∧
    (winCheck b).num_mines = b.num_mines := by
  unfold winCheck
  split <;> exact ⟨rfl, rfl, rfl, rfl, rfl, rfl, rfl⟩

theorem revealGo_blocked (oob : Int) (fuel : Nat) (b : Board) (r c : Int)
    (h : (¬ inB b r c) ∨ getO oob b.covered r c = 0) :
    revealGo oob fuel b r c = (b, -1) := by
  cases fuel with
  | zero => rfl
  | succ fuel =>
    rw [revealGo_succ]
    by_cases hb : r < 0 ∨ (b.size0 : Int) ≤ r ∨ c < 0 ∨ (b.size1 : Int) ≤ c
    · rw [if_pos hb]
    · rw [if_neg hb]
      have hcov : getO oob b.covered r c = 0 := by
        rcases h with h | h
        · exact absurd ((inB_iff b r c).2 hb) h
        · exact h
      rw [if_pos hcov]

theorem foldl_hold {α : Type} (f : Board → α → Board) (P : Board → Prop)
    (hstep : ∀ s a, P s → P (f s a)) : ∀ (L : List α) (b : Board), P b → P (L.foldl f b) := by
  intro L
  induction L with
  | nil => intro b hb; simpa using hb
  | cons a t ih => intro b hb; exact ih _ (hstep b a hb)

theorem foldl_congr_inv {α : Type} (f g : Board → α → Board) (Q : Board → Prop)
    (hfg : ∀ s a, Q s → f s a = g s a) (hq : ∀ s a, Q s → Q (g s a)) :
    ∀ (L : List α) (b : Board), Q b → L.foldl f b = L.foldl g b := by
  intro L
  induction L with
  | nil => intro b _; rfl
  | cons a t ih =>
    intro b hb
    rw [List.foldl_cons, List.foldl_cons, hfg b a hb]
    exact ih _ (hq b a hb)

theorem revealGo_statics (oob : Int) : ∀ (fuel : Nat) (b : Board) (r c : Int),
    (revealGo oob fuel b r c).1.mines = b.mines ∧
    (revealGo oob fuel b r c).1.board = b.board ∧
    (revealGo oob fuel b r c).1.size0 = b.size0 ∧
    (revealGo oob fuel b r c).1.size1 = b.size1 ∧
    (revealGo oob fuel b r c).1.num_mines = b.num_mines := by
  intro fuel
  induction fuel with
  | zero => intro b r c; exact ⟨rfl, rfl, rfl, rfl, rfl⟩
  | succ fuel ih =>
    intro b r c
    rw [revealGo_succ]
    have hw := winCheck_fields (uncoverB b r c)
    have hwu : (winCheck (uncoverB b r c)).mines = b.mines ∧
        (winCheck (uncoverB b r c)).board = b.board ∧
        (winCheck (uncoverB b r c)).size0 = b.size0 ∧
        (winCheck (uncoverB b r c)).size1 = b.size1 ∧
        (winCheck (uncoverB b r c)).num_mines = b.num_mines :=
      ⟨hw.2.2.1, hw.2.2.2.1, hw.2.2.2.2.1, hw.2.2.2.2.2.1, hw.2.2.2.2.2.2⟩
    split
    · exact ⟨rfl, rfl, rfl, rfl, rfl⟩
    split
    · exact ⟨rfl, rfl, rfl, rfl, rfl⟩
    split
    · exact hwu
    split
    · refine foldl_hold _ (fun s => s.mines = b.mines ∧ s.board = b.board ∧
        s.size0 = b.size0 ∧ s.size1 = b.size1 ∧ s.num_mines = b.num_mines) ?_ _ _ hwu
      intro s p hs
      have hr := ih s p.1 p.2
      exact ⟨hr.1.trans hs.1, hr.2.1.trans hs.2.1, hr.2.2.1.trans hs.2.2.1,
        hr.2.2.2.1.trans hs.2.2.2.1, hr.2.2.2.2.trans hs.2.2.2.2⟩
    · exact hwu

theorem getO_setCell_zero (g : List (List Int)) (r c d r' c' : Int) :
    getO d (setCell g r c 0) r' c' = getO d g r' c' ∨
    getO d (setCell g r c 0) r' c' = 0 := by
  by_cases hne : r' = r ∧ c' = c
  · obtain ⟨rfl, rfl⟩ := hne
    by_cases hg : 0 ≤ r' ∧ 0 ≤ c'
    · by_cases hr : r'.toNat < g.length
      · by_cases hc : c'.toNat < (g.getD r'.toNat []).length
        · right
          unfold setCell
          rw [if_pos hg, getO_pos d _ _ _ hg.1 hg.2]
          rw [list_getD_set_self g _ _ [] hr]
          exact list_getD_set_self _ _ _ _ hc
        · left
          unfold setCell
          rw [if_pos hg, getO_pos d _ _ _ hg.1 hg.2, getO_pos d g _ _ hg.1 hg.2]
          rw [list_getD_set_self g _ _ [] hr]
          rw [list_getD_default _ _ _ (by rw [List.length_set]; omega),
            list_getD_default _ _ _ (by omega)]
      · left
        unfold setCell
        rw [if_pos hg, List.set_eq_of_length_le (by omega)]
    · left
      rw [setCell_neg _ _ _ _ hg]
  · left
    exact getO_setCell_ne g r c r' c' 0 d hne

theorem revealGo_cov (oob : Int) : ∀ (fuel : Nat) (b : Board) (r c : Int) (d r' c' : Int),
    getO d (revealGo oob fuel b r c).1.covered r' c' = getO d b.covered r' c' ∨
    getO d (revealGo oob fuel b r c).1.covered r' c' = 0 := by
  intro fuel
  induction fuel with
  | zero => intro b r c d r' c'; exact Or.inl rfl
  | succ fuel ih =>
    intro b r c d r' c'
    rw [revealGo_succ]
    have hwc : (winCheck (uncoverB b r c)).covered = setCell b.covered r c 0 :=
      (winCheck_fields (uncoverB b r c)).1
    split
    · exact Or.inl rfl
    split
    · exact Or.inl rfl
    split
    · show getO d (winCheck (uncoverB b r c)).covered r' c' = _ ∨ _
      rw [hwc]
      exact getO_setCell_zero b.covered r c d r' c'
    split
    · have hfold := foldl_hold (fun s p => (revealGo oob fuel s p.1 p.2).1)
        (fun s => ∀ d r' c', getO d s.covered r' c' = getO d b.covered r' c' ∨
          getO d s.covered r' c' = 0)
        (fun s p hs d1 r1 c1 => by
          rcases ih s p.1 p.2 d1 r1 c1 with h | h
          · rw [h]; exact hs d1 r1 c1
          · exact Or.inr h)
        (nbrs r c) (winCheck (uncoverB b r c))
        (fun d1 r1 c1 => by rw [hwc]; exact getO_setCell_zero b.covered r c d1 r1 c1)
      exact hfold d r' c'
    · show getO d (winCheck (uncoverB b r c)).covered r' c' = _ ∨ _
      rw [hwc]
      exact getO_setCell_zero b.covered r c d r' c'

theorem revealGo_ccount_le (oob : Int) : ∀ (fuel : Nat) (b : Board) (r c : Int),
    ccountG (revealGo oob fuel b r c).1.covered ≤ ccountG b.covered := by
  intro fuel
  induction fuel with
  | zero => intro b r c; exact Nat.le_refl _
  | succ fuel ih =>
    intro b r c
    rw [revealGo_succ]
    have hwc : (winCheck (uncoverB b r c)).covered = setCell b.covered r c 0 :=
      (winCheck_fields (uncoverB b r c)).1
    split
    · exact Nat.le_refl _
    split
    · exact Nat.le_refl _
    split
    · show ccountG (winCheck (uncoverB b r c)).covered ≤ _
      rw [hwc]
      exact ccountG_setCell_le b.covered r c
    split
    · show ccountG ((nbrs r c).foldl (fun s p => (revealGo oob fuel s p.1 p.2).1)
        (winCheck (uncoverB b r c))).covered ≤ ccountG b.covered
      have hfold := foldl_hold (fun s p => (revealGo oob fuel s p.1 p.2).1)
        (fun s => ccountG s.covered ≤ ccountG b.covered)
        (fun s p hs => Nat.le_trans (ih s p.1 p.2) hs)
        (nbrs r c) (winCheck (uncoverB b r c))
        (by show ccountG (winCheck (uncoverB b r c)).covered ≤ ccountG b.covered
            rw [hwc]; exact ccountG_setCell_le b.covered r c)
      exact hfold
    · show ccountG (winCheck (uncoverB b r c)).covered ≤ _
      rw [hwc]
      exact ccountG_setCell_le b.covered r c

theorem covinv_wu (oob : Int) (b : Board) (r c : Int) (hinv : CovInv b)
    (hb : ¬(r < 0 ∨ (b.size0 : Int) ≤ r ∨ c < 0 ∨ (b.size1 : Int) ≤ c))
    (hcov : ¬ getO oob b.covered r c = 0) :
    CovInv (winCheck (uncoverB b r c)) ∧
    ccountG (winCheck (uncoverB b r c)).covered + 1 = ccountG b.covered := by
  obtain ⟨hrect, hvals, hnum⟩ := hinv
  obtain ⟨h0, h1, h2, h3⟩ := (inB_iff b r c).2 hb
  have hnz : getO 0 b.covered r c ≠ 0 := by
    rw [getO_irrel 0 oob b.covered b.size0 b.size1 r c hrect h0 h1 h2 h3]
    exact hcov
  have hdec := ccountG_setCell_dec b.covered b.size0 b.size1 r c hrect h0 h1 h2 h3 hnz
  have hw := winCheck_fields (uncoverB b r c)
  have hcset : (winCheck (uncoverB b r c)).covered = setCell b.covered r c 0 := hw.1
  constructor
  · refine ⟨?_, ?_, ?_⟩
    · rw [hcset, hw.2.2.2.2.1, hw.2.2.2.2.2.1]
      exact rect_setCell _ _ _ _ _ _ hrect
    · rw [hcset]
      exact vals01_setCell _ _ _ _ hvals (Or.inl rfl)
    · rw [hcset, hw.2.1]
      show b.num_covered - 1 = _
      rw [hnum]
      have : ccountG (setCell b.covered r c 0) + 1 = ccountG b.covered := hdec
      omega
  · rw [hcset]
    omega

theorem revealGo_covinv (oob : Int) : ∀ (fuel : Nat) (b : Board) (r c : Int),
    CovInv b → CovInv (revealGo oob fuel b r c).1 := by
  intro fuel
  induction fuel with
  | zero => intro b r c hinv; exact hinv
  | succ fuel ih =>
    intro b r c hinv
    rw [revealGo_succ]
    split
    · exact hinv
    split
    · exact hinv
    rename_i hb hcov
    have hwu := (covinv_wu oob b r c hinv hb hcov).1
    split
    · exact hwu
    split
    · have hfold := foldl_hold (fun s p => (revealGo oob fuel s p.1 p.2).1) CovInv
        (fun s p hs => ih s p.1 p.2 hs) (nbrs r c) (winCheck (uncoverB b r c)) hwu
      exact hfold
    · exact hwu

theorem revealGo_fuel_succ (oob : Int) : ∀ (fuel : Nat) (b : Board) (r c : Int),
    CovInv b → ccountG b.covered ≤ fuel →
    revealGo oob (fuel+1) b r c = revealGo oob fuel b r c := by
  intro fuel
  induction fuel with
  | zero =>
    intro b r c hinv hcc
    rw [revealGo_zero]
    by_cases hb : r < 0 ∨ (b.size0 : Int) ≤ r ∨ c < 0 ∨ (b.size1 : Int) ≤ c
    · exact revealGo_blocked oob 1 b r c (Or.inl (fun hin => ((inB_iff b r c).1 hin) hb))
    · obtain ⟨h0, h1, h2, h3⟩ := (inB_iff b r c).2 hb
      exact revealGo_blocked oob 1 b r c (Or.inr
        (ccountG_zero b.covered b.size0 b.size1 oob r c hinv.1 (by omega) h0 h1 h2 h3))
  | succ fuel ih =>
    intro b r c hinv hcc
    by_cases hb : r < 0 ∨ (b.size0 : Int) ≤ r ∨ c < 0 ∨ (b.size1 : Int) ≤ c
    · have hnin : ¬ inB b r c := fun hin => ((inB_iff b r c).1 hin) hb
      rw [revealGo_blocked oob (fuel+1+1) b r c (Or.inl hnin),
        revealGo_blocked oob (fuel+1) b r c (Or.inl hnin)]
    by_cases hcov : getO oob b.covered r c = 0
    · rw [revealGo_blocked oob (fuel+1+1) b r c (Or.inr hcov),
        revealGo_blocked oob (fuel+1) b r c (Or.inr hcov)]
    rw [revealGo_succ oob (fuel+1), revealGo_succ oob fuel]
    rw [if_neg hb, if_neg hb, if_neg hcov, if_neg hcov]
    by_cases hmine : getO oob b.mines r c ≠ 0
    · rw [if_pos hmine, if_pos hmine]
    rw [if_neg hmine, if_neg hmine]
    by_cases hz : getO oob b.board r c = 0
    · rw [if_pos hz, if_pos hz]
      have hwu := covinv_wu oob b r c hinv hb hcov
      have hfold := foldl_congr_inv
        (fun s p => (revealGo oob (fuel+1) s p.1 p.2).1)
        (fun s p => (revealGo oob fuel s p.1 p.2).1)
        (fun s => CovInv s ∧ ccountG s.covered ≤ fuel)
        (fun s p hq => congrArg Prod.fst (ih s p.1 p.2 hq.1 hq.2))
        (fun s p hq => ⟨revealGo_covinv oob fuel s p.1 p.2 hq.1,
          Nat.le_trans (revealGo_ccount_le oob fuel s p.1 p.2) hq.2⟩)
        (nbrs r c) (winCheck (uncoverB b r c))
        ⟨hwu.1, by omega⟩
      rw [hfold]
    · rw [if_neg hz, if_neg hz]

theorem revealGo_fuel_ge (oob : Int) (b : Board) (r c : Int) (hinv : CovInv b) :
    ∀ (f : Nat), ccountG b.covered ≤ f →
    revealGo oob f b r c = revealGo oob (ccountG b.covered) b r c := by
  intro f
  refine Nat.le_induction rfl ?_ f
  intro n hn ihn
  rw [revealGo_fuel_succ oob n b r c hinv hn]
  exact ihn

theorem revealGo_fuel_irrel (oob : Int) (b : Board) (r c : Int) (hinv : CovInv b)
    (f1 f2 : Nat) (h1 : ccountG b.covered ≤ f1) (h2 : ccountG b.covered ≤ f2) :
    revealGo oob f1 b r c = revealGo oob f2 b r c := by
  rw [revealGo_fuel_ge oob b r c hinv f1 h1, revealGo_fuel_ge oob b r c hinv f2 h2]

theorem winCheck_state (b : Board) :
    (winCheck b).game_state = GameState.win ∨ (winCheck b).game_state = b.game_state := by
  unfold winCheck
  split
  · exact Or.inl rfl
  · exact Or.inr rfl

theorem revealGo_state_terminal (oob : Int) : ∀ (fuel : Nat) (b : Board) (r c : Int),
    b.game_state ≠ GameState.in_progress →
    (revealGo oob fuel b r c).1.game_state ≠ GameState.in_progress := by
  intro fuel
  induction fuel with
  | zero => intro b r c h; exact h
  | succ fuel ih =>
    intro b r c h
    rw [revealGo_succ]
    have hwu : (winCheck (uncoverB b r c)).game_state ≠ GameState.in_progress := by
      rcases winCheck_state (uncoverB b r c) with hs | hs
      · rw [hs]; intro hk; cases hk
      · rw [hs]; exact h
    split
    · exact h
    split
    · exact h
    split
    · intro hk; cases hk
    split
    · have hfold := foldl_hold (fun s p => (revealGo oob fuel s p.1 p.2).1)
        (fun s => s.game_state ≠ GameState.in_progress)
        (fun s p hs => ih s p.1 p.2 hs) (nbrs r c) (winCheck (uncoverB b r c)) hwu
      exact hfold
    · exact hwu

/-- Claim C6: `reveal` on an out-of-bounds coordinate or on an already
uncovered cell returns the blocked sentinel `-1` and returns the board
completely unchanged (every field, hence covered grid, counters, mines,
counts and game state). -/
theorem c6_blocked_noop (b : Board) (r c : Int)
    (h : ¬ inB b r c ∨ (inB b r c ∧ getO 0 b.covered r c = 0)) :
    reveal b r c = (b, -1) := by
  unfold reveal
  apply revealGo_blocked
  rcases h with h | h
  · exact Or.inl h
  · exact Or.inr h.2

set_option maxRecDepth 10000 in
/-- Witness for C6: an out-of-bounds reveal on the 3x3 example board. -/
theorem c6_blocked_noop_witness :
    (¬ inB cexBoard 5 0 ∨ (inB cexBoard 5 0 ∧ getO 0 cexBoard.covered 5 0 = 0)) ∧
    reveal cexBoard 5 0 = (cexBoard, -1) :=
  ⟨by decide, c6_blocked_noop cexBoard 5 0 (by decide)⟩

set_option maxRecDepth 10000 in
/-- Counterexample to claim C1 as stated: on the 3x3 board with a single
mine at `(0, 0)`, revealing the mine puts the game in `failure` (Loss), but
a later `reveal (0, 2)` cascades through the safe cells, the covered count
reaches the mine count, and `getstate` afterwards returns `win` — the Loss
did not persist for the remainder of the board's life. -/
theorem c1_counterexample :
    initBoard 3 3 cexMines = some cexBoard ∧
    getstate (reveal cexBoard 0 0).1 = GameState.failure ∧
    getstate (reveal (reveal cexBoard 0 0).1 0 2).1 = GameState.win := by
  refine ⟨?_, ?_, ?_⟩ <;> decide

/-- Claim C1 amended: once the state has left `in_progress` it never
returns to `in_progress` (and `getstate` is a pure read, so without further
reveal calls the observed state is stable); however a further `reveal` call
can still replace one terminal state by the other, as the counterexample
shows. -/
theorem c1_amended_no_revert (b : Board) (r c : Int)
    (h : getstate b ≠ GameState.in_progress) :
    getstate (reveal b r c).1 ≠ GameState.in_progress :=
  revealGo_state_terminal 0 (b.size0 * b.size1) b r c h

set_option maxRecDepth 10000 in
/-- Witness for the amended C1: after revealing the mine the state is
terminal, and a further reveal leaves it terminal. -/
theorem c1_amended_no_revert_witness :
    getstate (reveal cexBoard 0 0).1 ≠ GameState.in_progress ∧
    getstate (reveal (reveal cexBoard 0 0).1 0 2).1 ≠ GameState.in_progress :=
  ⟨by decide, c1_amended_no_revert (reveal cexBoard 0 0).1 0 2 (by decide)⟩

/-- Claim C9: the cascade recursion is bounded by the number of cells:
with any recursion budget of at least `rows * cols`, `revealGo` computes
the same total result as `reveal` (whose budget is exactly `rows * cols`),
so a board with `rows * cols` cells never needs more recursive
activations than cells that can be uncovered. -/
theorem c9_termination (b : Board) (r c : Int) (hinv : CovInv b)
    (fuel : Nat) (hf : b.size0 * b.size1 ≤ fuel) :
    revealGo 0 fuel b r c = reveal b r c := by
  unfold reveal
  have hcc : ccountG b.covered ≤ b.size0 * b.size1 := ccountG_le _ _ _ hinv.1
  exact revealGo_fuel_irrel 0 b r c hinv fuel (b.size0 * b.size1)
    (Nat.le_trans hcc hf) hcc

set_option maxRecDepth 10000 in
/-- Witness for C9 on the 3x3 example board with a large budget. -/
theorem c9_termination_witness :
    CovInv cexBoard ∧ revealGo 0 100 cexBoard 0 2 = reveal cexBoard 0 2 :=
  ⟨by decide, c9_termination cexBoard 0 2 (by decide) 100 (by decide)⟩

theorem revealGo_rect_covered (oob : Int) : ∀ (fuel : Nat) (b : Board) (r c : Int),
    Rect b.covered b.size0 b.size1 →
    Rect (revealGo oob fuel b r c).1.covered (revealGo oob fuel b r c).1.size0
      (revealGo oob fuel b r c).1.size1 := by
  intro fuel
  induction fuel with
  | zero => intro b r c hrc; exact hrc
  | succ fuel ih =>
    intro b r c hrc
    rw [revealGo_succ]
    have hw := winCheck_fields (uncoverB b r c)
    have hwu : Rect (winCheck (uncoverB b r c)).covered
        (winCheck (uncoverB b r c)).size0 (winCheck (uncoverB b r c)).size1 := by
      rw [hw.1, hw.2.2.2.2.1, hw.2.2.2.2.2.1]
      exact rect_setCell _ _ _ _ _ _ hrc
    split
    · exact hrc
    split
    · exact hrc
    split
    · exact hwu
    split
    · have hfold := foldl_hold (fun s p => (revealGo oob fuel s p.1 p.2).1)
        (fun s => Rect s.covered s.size0 s.size1)
        (fun s p hs => ih s p.1 p.2 hs) (nbrs r c) (winCheck (uncoverB b r c)) hwu
      exact hfold
    · exact hwu

theorem revealGo_oob_irrel (o1 o2 : Int) : ∀ (fuel : Nat) (b : Board) (r c : Int),
    Rect b.mines b.size0 b.size1 → Rect b.board b.size0 b.size1 →
    Rect b.covered b.size0 b.size1 →
    revealGo o1 fuel b r c = revealGo o2 fuel b r c := by
  intro fuel
  induction fuel with
  | zero => intro b r c _ _ _; rfl
  | succ fuel ih =>
    intro b r c hm hb hc
    rw [revealGo_succ o1, revealGo_succ o2]
    by_cases hbounds : r < 0 ∨ (b.size0 : Int) ≤ r ∨ c < 0 ∨ (b.size1 : Int) ≤ c
    · rw [if_pos hbounds, if_pos hbounds]
    rw [if_neg hbounds, if_neg hbounds]
    obtain ⟨h0, h1, h2, h3⟩ := (inB_iff b r c).2 hbounds
    rw [getO_irrel o1 o2 b.covered b.size0 b.size1 r c hc h0 h1 h2 h3,
      getO_irrel o1 o2 b.mines b.size0 b.size1 r c hm h0 h1 h2 h3,
      getO_irrel o1 o2 b.board b.size0 b.size1 r c hb h0 h1 h2 h3]
    by_cases hcov : getO o2 b.covered r c = 0
    · rw [if_pos hcov, if_pos hcov]
    rw [if_neg hcov, if_neg hcov]
    by_cases hmine : getO o2 b.mines r c ≠ 0
    · rw [if_pos hmine, if_pos hmine]
    rw [if_neg hmine, if_neg hmine]
    by_cases hz : getO o2 b.board r c = 0
    · rw [if_pos hz, if_pos hz]
      have hst := revealGo_statics
      have hfold := foldl_congr_inv
        (fun s p => (revealGo o1 fuel s p.1 p.2).1)
        (fun s p => (revealGo o2 fuel s p.1 p.2).1)
        (fun s => Rect s.mines s.size0 s.size1 ∧ Rect s.board s.size0 s.size1 ∧
          Rect s.covered s.size0 s.size1)
        (fun s p hq => congrArg Prod.fst (ih s p.1 p.2 hq.1 hq.2.1 hq.2.2))
        (fun s p hq => by
          have hs := revealGo_statics o2 fuel s p.1 p.2
          refine ⟨?_, ?_, ?_⟩
          · rw [hs.1, hs.2.2.1, hs.2.2.2.1]; exact hq.1
          · rw [hs.2.1, hs.2.2.1, hs.2.2.2.1]; exact hq.2.1
          · exact revealGo_rect_covered o2 fuel s p.1 p.2 hq.2.2)
        (nbrs r c) (winCheck (uncoverB b r c))
        (by
          have hw := winCheck_fields (uncoverB b r c)
          refine ⟨?_, ?_, ?_⟩
          · rw [hw.2.2.1, hw.2.2.2.2.1, hw.2.2.2.2.2.1]; exact hm
          · rw [hw.2.2.2.1, hw.2.2.2.2.1, hw.2.2.2.2.2.1]; exact hb
          · rw [hw.1, hw.2.2.2.2.1, hw.2.2.2.2.2.1]; exact rect_setCell _ _ _ _ _ _ hc)
      rw [hfold]
    · rw [if_neg hz, if_neg hz]

/-- Claim C10: every grid access performed by `reveal` and `getsquare` is
behind the bounds guard, so the functions are total in the embedding and the
out-of-range branch of the array accessor is never taken: the results do not
depend on the value `oob` an out-of-range access would yield. -/
theorem c10_guarded_access (b : Board) (o1 o2 : Int)
    (hm : Rect b.mines b.size0 b.size1) (hb : Rect b.board b.size0 b.size1)
    (hc : Rect b.covered b.size0 b.size1) :
    (∀ (fuel : Nat) (r c : Int), revealGo o1 fuel b r c = revealGo o2 fuel b r c) ∧
    (∀ (r c : Int), getsquareO o1 b r c = getsquareO o2 b r c) := by
  constructor
  · intro fuel r c
    exact revealGo_oob_irrel o1 o2 fuel b r c hm hb hc
  · intro r c
    unfold getsquareO
    by_cases hbounds : r < 0 ∨ (b.size0 : Int) ≤ r ∨ c < 0 ∨ (b.size1 : Int) ≤ c
    · rw [if_pos hbounds, if_pos hbounds]
    rw [if_neg hbounds, if_neg hbounds]
    obtain ⟨h0, h1, h2, h3⟩ := (inB_iff b r c).2 hbounds
    rw [getO_irrel o1 o2 b.covered b.size0 b.size1 r c hc h0 h1 h2 h3,
      getO_irrel o1 o2 b.mines b.size0 b.size1 r c hm h0 h1 h2 h3,
      getO_irrel o1 o2 b.board b.size0 b.size1 r c hb h0 h1 h2 h3]

set_option maxRecDepth 10000 in
/-- Witness for C10 on the 3x3 example board with two different
out-of-range sentinels. -/
theorem c10_guarded_access_witness :
    Rect cexBoard.mines cexBoard.size0 cexBoard.size1 ∧
    revealGo 7 9 cexBoard 0 2 = revealGo (-5) 9 cexBoard 0 2 ∧
    getsquareO 7 cexBoard 1 1 = getsquareO (-5) cexBoard 1 1 :=
  ⟨by decide,
    (c10_guarded_access cexBoard 7 (-5) (by decide) (by decide) (by decide)).1 9 0 2,
    (c10_guarded_access cexBoard 7 (-5) (by decide) (by decide) (by decide)).2 1 1⟩

theorem sum_map_const {α : Type} (l : List α) (k : Nat) :
    (l.map (fun _ => k)).sum = l.length * k := by
  induction l with
  | nil => simp
  | cons a t ih => simp [ih]; ring

theorem initBoard_some (rows cols : Nat) (data : List (List Int)) (b : Board)
    (h : initBoard rows cols data = some b) :
    (data.length = rows ∧ ∀ row ∈ data, row.length = cols) ∧
    (∀ row ∈ (minesNorm data).map conv3same, row.length = cols) ∧
    (∀ c ∈ List.range cols,
      (conv3same (colOf ((minesNorm data).map conv3same) c)).length = rows) ∧
    b = { size0 := rows, size1 := cols, mines := minesNorm data,
          board := (List.range rows).map (fun r => (List.range cols).map
            (fun c => (conv3same (colOf ((minesNorm data).map conv3same) c)).getD r 0)),
          covered := (List.range rows).map
            (fun _ => (List.range cols).map (fun _ => (1 : Int))),
          num_mines := sumGrid (minesNorm data),
          num_covered := ((rows * cols : Nat) : Int),
          game_state := GameState.in_progress } := by
  unfold initBoard at h
  split at h
  · dsimp only [] at h
    split at h
    · split at h
      · rename_i h1 h2 h3
        exact ⟨h1, h2, h3, (Option.some.inj h).symm⟩
      · cases h
    · cases h
  · cases h

theorem ones_grid_rect (rows cols : Nat) :
    Rect ((List.range rows).map (fun _ => (List.range cols).map (fun _ => (1 : Int))))
      rows cols := by
  constructor
  · simp
  · intro row hrow
    rcases List.mem_map.1 hrow with ⟨i, _, rfl⟩
    simp

theorem ones_grid_vals (rows cols : Nat) :
    Vals01 ((List.range rows).map (fun _ => (List.range cols).map (fun _ => (1 : Int)))) := by
  intro row hrow x hx
  rcases List.mem_map.1 hrow with ⟨i, _, rfl⟩
  rcases List.mem_map.1 hx with ⟨j, _, rfl⟩
  exact Or.inr rfl

theorem ones_grid_ccount (rows cols : Nat) :
    ccountG ((List.range rows).map (fun _ => (List.range cols).map (fun _ => (1 : Int)))) =
      rows * cols := by
  unfold ccountG
  rw [List.map_map]
  have hrow : ∀ i : Nat, ((List.range cols).map (fun _ => (1 : Int))).countP
      (fun x => x != 0) = cols := by
    intro i
    rw [List.countP_eq_length.2 (by
      intro a ha
      rcases List.mem_map.1 ha with ⟨j, _, rfl⟩
      decide)]
    simp
  have : (List.range rows).map
      ((fun row => row.countP (fun x => x != 0)) ∘ (fun _ => (List.range cols).map
        (fun _ => (1 : Int)))) = (List.range rows).map (fun _ => cols) := by
    apply List.map_congr_left
    intro i _
    exact hrow i
  rw [this, sum_map_const]
  simp

theorem initBoard_covinv (rows cols : Nat) (data : List (List Int)) (b : Board)
    (h : initBoard rows cols data = some b) : CovInv b := by
  obtain ⟨_, _, _, rfl⟩ := initBoard_some rows cols data b h
  refine ⟨ones_grid_rect rows cols, ones_grid_vals rows cols, ?_⟩
  show ((rows * cols : Nat) : Int) = _
  rw [ones_grid_ccount rows cols]

/-- Claim C8: the invariant `num_covered = number of covered entries` holds
after construction and is preserved by every reveal call, with the covered
grid staying rectangular and 0/1-valued; moreover a cell never reverts to
covered (an uncovered cell stays uncovered through any reveal). -/
theorem c8_num_covered_invariant :
    (∀ (rows cols : Nat) (data : List (List Int)) (b : Board),
      initBoard rows cols data = some b →
      b.num_covered = (ccountG b.covered : Int) ∧ Rect b.covered b.size0 b.size1 ∧
      Vals01 b.covered) ∧
    (∀ (b : Board) (r c : Int), CovInv b →
      CovInv (reveal b r c).1 ∧
      (∀ (d r' c' : Int), getO d b.covered r' c' = 0 →
        getO d (reveal b r c).1.covered r' c' = 0)) := by
  constructor
  · intro rows cols data b h
    have hinv := initBoard_covinv rows cols data b h
    exact ⟨hinv.2.2, hinv.1, hinv.2.1⟩
  · intro b r c hinv
    constructor
    · exact revealGo_covinv 0 (b.size0 * b.size1) b r c hinv
    · intro d r' c' h0
      show getO d (revealGo 0 (b.size0 * b.size1) b r c).1.covered r' c' = 0
      rcases revealGo_cov 0 (b.size0 * b.size1) b r c d r' c' with hcase | hcase
      · rw [hcase, h0]
      · exact hcase

set_option maxRecDepth 10000 in
/-- Witness for C8: the construction clause at the 3x3 example board and
the preservation clause at a reveal on it. -/
theorem c8_num_covered_invariant_witness :
    cexBoard.num_covered = (ccountG cexBoard.covered : Int) ∧
    CovInv (reveal cexBoard 0 2).1 :=
  ⟨(c8_num_covered_invariant.1 3 3 cexMines cexBoard (by decide)).1,
    (c8_num_covered_invariant.2 cexBoard 0 2 (by decide)).1⟩

theorem nbrs_ne (r c : Int) : ∀ p ∈ nbrs r c, ¬(p.1 = r ∧ p.2 = c) := by
  intro p hp
  simp only [nbrs, List.mem_cons, List.not_mem_nil, or_false] at hp
  rcases hp with rfl | rfl | rfl | rfl | rfl | rfl | rfl | rfl <;> (dsimp only; omega)

theorem inB_wu (b : Board) (r c x y : Int) :
    inB (winCheck (uncoverB b r c)) x y ↔ inB b x y := by
  unfold inB
  have hw := winCheck_fields (uncoverB b r c)
  rw [hw.2.2.2.2.1, hw.2.2.2.2.2.1]
  exact Iff.rfl

theorem foldl_blocked (oob : Int) (fuel : Nat) (B : Board) :
    ∀ (L : List (Int × Int)),
    (∀ p ∈ L, ¬ inB B p.1 p.2 ∨ getO oob B.covered p.1 p.2 = 0) →
    L.foldl (fun s p => (revealGo oob fuel s p.1 p.2).1) B = B := by
  intro L
  induction L with
  | nil => intro _; rfl
  | cons a t ih =>
    intro h
    rw [List.foldl_cons, revealGo_blocked oob fuel B a.1 a.2 (h a (by simp))]
    exact ih (fun p hp => h p (by simp [hp]))

theorem size_pos_of_inB (b : Board) (r c : Int) (hin : inB b r c) :
    b.size0 * b.size1 = (b.size0 * b.size1 - 1) + 1 := by
  obtain ⟨h0, h1, h2, h3⟩ := hin
  have hs0 : 0 < b.size0 := by omega
  have hs1 : 0 < b.size1 := by omega
  have : 0 < b.size0 * b.size1 := Nat.mul_pos hs0 hs1
  omega

theorem reveal_mine_case (b : Board) (r c : Int) (hin : inB b r c)
    (hcov : getO 0 b.covered r c ≠ 0) (hmine : getO 0 b.mines r c ≠ 0) :
    reveal b r c = ({ winCheck (uncoverB b r c) with game_state := GameState.failure }, 0) := by
  unfold reveal
  rw [size_pos_of_inB b r c hin, revealGo_succ]
  rw [if_neg ((inB_iff b r c).1 hin), if_neg hcov, if_pos hmine]

theorem reveal_pos_case (b : Board) (r c : Int) (hin : inB b r c)
    (hcov : getO 0 b.covered r c ≠ 0) (hmine : ¬ getO 0 b.mines r c ≠ 0)
    (hz : getO 0 b.board r c ≠ 0) :
    reveal b r c = (winCheck (uncoverB b r c), 1) := by
  unfold reveal
  rw [size_pos_of_inB b r c hin, revealGo_succ]
  rw [if_neg ((inB_iff b r c).1 hin), if_neg hcov, if_neg hmine, if_neg hz]

theorem reveal_zero_case (b : Board) (r c : Int) (hin : inB b r c)
    (hcov : getO 0 b.covered r c ≠ 0) (hmine : ¬ getO 0 b.mines r c ≠ 0)
    (hz : getO 0 b.board r c = 0) :
    reveal b r c = ((nbrs r c).foldl
      (fun s p => (revealGo 0 (b.size0 * b.size1 - 1) s p.1 p.2).1)
      (winCheck (uncoverB b r c)), 1) := by
  unfold reveal
  conv_lhs => rw [size_pos_of_inB b r c hin]
  rw [revealGo_succ]
  rw [if_neg ((inB_iff b r c).1 hin), if_neg hcov, if_neg hmine, if_pos hz]

theorem winCheck_uncover_state (b : Board) (r c : Int) :
    (winCheck (uncoverB b r c)).game_state =
    if b.num_covered - 1 = b.num_mines then GameState.win else b.game_state := by
  unfold winCheck
  by_cases h : (uncoverB b r c).num_covered = (uncoverB b r c).num_mines
  · rw [if_pos h, if_pos (show b.num_covered - 1 = b.num_mines from h)]
  · rw [if_neg h, if_neg (show ¬(b.num_covered - 1 = b.num_mines) from h)]
    rfl

theorem getO_vals01 (g : List (List Int)) (hv : Vals01 g) (x y : Int) :
    getO 0 g x y = 0 ∨ getO 0 g x y = 1 := by
  unfold getO
  split
  · by_cases hr : x.toNat < g.length
    · by_cases hc : y.toNat < (g.getD x.toNat []).length
      · exact hv _ (getD_row_mem g x.toNat [] hr) _ (getD_row_mem _ y.toNat 0 hc)
      · rw [list_getD_default _ _ _ (by omega)]
        exact Or.inl rfl
    · rw [list_getD_default g x.toNat [] (by omega)]
      exact Or.inl rfl
  · exact Or.inl rfl

theorem window_zero_mines (b : Board) (hwf : WF b) (r c : Int) (hin : inB b r c)
    (hz : getO 0 b.board r c = 0) :
    getO 0 b.mines r c = 0 ∧ ∀ p ∈ nbrs r c, getO 0 b.mines p.1 p.2 = 0 := by
  obtain ⟨h0, h1, h2, h3⟩ := hin
  have hcounts := hwf.2.2.2.2.2.2.2 r.toNat (by omega) c.toNat (by omega)
  rw [show ((r.toNat : Nat) : Int) = r by omega, show ((c.toNat : Nat) : Int) = c by omega] at hcounts
  rw [hcounts] at hz
  unfold windowSum at hz
  have hv := hwf.2.2.2.1
  have b01 : ∀ x y : Int, 0 ≤ getO 0 b.mines x y ∧ getO 0 b.mines x y ≤ 1 := by
    intro x y
    rcases getO_vals01 b.mines hv x y with h | h <;> omega
  have t1 := b01 (r-1) (c-1)
  have t2 := b01 (r-1) c
  have t3 := b01 (r-1) (c+1)
  have t4 := b01 r (c-1)
  have t5 := b01 r c
  have t6 := b01 r (c+1)
  have t7 := b01 (r+1) (c-1)
  have t8 := b01 (r+1) c
  have t9 := b01 (r+1) (c+1)
  constructor
  · omega
  · intro p hp
    simp only [nbrs, List.mem_cons, List.not_mem_nil, or_false] at hp
    rcases hp with rfl | rfl | rfl | rfl | rfl | rfl | rfl | rfl <;> (dsimp only; omega)

/-- Claim C4: for a reveal of a covered in-bounds cell, the game state is
determined by: a mine makes the state `failure` (Loss) and returns the mine
code 0, regardless of the covered-count equality; otherwise (for a
non-cascading reveal, hint nonzero) the state becomes `win` exactly when
`num_covered` equals `num_mines` after the decrement and is unchanged
otherwise; and revealing the last covered non-mine cell (all other covered
cells are mines and `num_covered = num_mines + 1`) yields `win` with
`num_covered = num_mines` at that point, whether or not a cascade is
attempted. -/
theorem c4_state_rule (b : Board) (r c : Int) (hwf : WF b)
    (hin : inB b r c) (hcov : getO 0 b.covered r c ≠ 0) :
    (getO 0 b.mines r c ≠ 0 →
      getstate (reveal b r c).1 = GameState.failure ∧ (reveal b r c).2 = 0) ∧
    (getO 0 b.mines r c = 0 → getO 0 b.board r c ≠ 0 →
      getstate (reveal b r c).1 =
        (if b.num_covered - 1 = b.num_mines then GameState.win else b.game_state)) ∧
    (getO 0 b.mines r c = 0 →
      (∀ p1, p1 < b.size0 → ∀ p2, p2 < b.size1 → ¬((p1 : Int) = r ∧ (p2 : Int) = c) →
        getO 0 b.covered (p1 : Int) (p2 : Int) ≠ 0 →
        getO 0 b.mines (p1 : Int) (p2 : Int) ≠ 0) →
      b.num_covered = b.num_mines + 1 →
      getstate (reveal b r c).1 = GameState.win ∧
      (reveal b r c).1.num_covered = b.num_mines) := by
  refine ⟨?_, ?_, ?_⟩
  · intro hmine
    rw [reveal_mine_case b r c hin hcov hmine]
    exact ⟨rfl, rfl⟩
  · intro hm0 hz
    rw [reveal_pos_case b r c hin hcov (fun h => h hm0) hz]
    show (winCheck (uncoverB b r c)).game_state = _
    exact winCheck_uncover_state b r c
  · intro hm0 honly hstart
    have hconc : (winCheck (uncoverB b r c)).game_state = GameState.win ∧
        (winCheck (uncoverB b r c)).num_covered = b.num_mines := by
      constructor
      · rw [winCheck_uncover_state b r c, if_pos (by omega)]
      · rw [(winCheck_fields (uncoverB b r c)).2.1]
        show b.num_covered - 1 = b.num_mines
        omega
    by_cases hz : getO 0 b.board r c = 0
    · have hwz := window_zero_mines b hwf r c hin hz
      have hblocked : ∀ p ∈ nbrs r c,
          ¬ inB (winCheck (uncoverB b r c)) p.1 p.2 ∨
          getO 0 (winCheck (uncoverB b r c)).covered p.1 p.2 = 0 := by
        intro p hp
        by_cases hpin : inB b p.1 p.2
        · right
          rw [(winCheck_fields (uncoverB b r c)).1]
          show getO 0 (setCell b.covered r c 0) p.1 p.2 = 0
          rw [getO_setCell_ne b.covered r c p.1 p.2 0 0 (nbrs_ne r c p hp)]
          by_contra hne
          obtain ⟨q0, q1, q2, q3⟩ := hpin
          have hmp := honly p.1.toNat (by omega) p.2.toNat (by omega)
            (by
              rw [show ((p.1.toNat : Nat) : Int) = p.1 by omega,
                show ((p.2.toNat : Nat) : Int) = p.2 by omega]
              exact nbrs_ne r c p hp)
            (by
              rw [show ((p.1.toNat : Nat) : Int) = p.1 by omega,
                show ((p.2.toNat : Nat) : Int) = p.2 by omega]
              exact hne)
          rw [show ((p.1.toNat : Nat) : Int) = p.1 by omega,
            show ((p.2.toNat : Nat) : Int) = p.2 by omega] at hmp
          exact hmp (hwz.2 p hp)
        · left
          rw [inB_wu b r c p.1 p.2]
          exact hpin
      rw [reveal_zero_case b r c hin hcov (fun h => h hm0) hz,
        foldl_blocked 0 (b.size0 * b.size1 - 1) (winCheck (uncoverB b r c))
          (nbrs r c) hblocked]
      exact hconc
    · rw [reveal_pos_case b r c hin hcov (fun h => h hm0) hz]
      exact hconc

set_option maxRecDepth 10000 in
/-- Witness for C4: on the all-mines-but-centre board, revealing the centre
(the last covered non-mine cell) wins with `num_covered = num_mines`. -/
theorem c4_state_rule_witness :
    WF cexBoard2 ∧
    getstate (reveal cexBoard2 1 1).1 = GameState.win ∧
    (reveal cexBoard2 1 1).1.num_covered = cexBoard2.num_mines :=
  ⟨by decide, (c4_state_rule cexBoard2 1 1 (by decide) (by decide) (by decide)).2.2
    (by decide) (by decide) (by decide)⟩

theorem getD_range_map (f : Nat → Int) (n i : Nat) (d : Int) (hi : i < n) :
    ((List.range n).map f).getD i d = f i := by
  rw [List.getD_eq_getElem _ _ (by simpa using hi)]
  simp

theorem getD_map_gen {α β : Type} (f : α → β) (g : List α) (i : Nat) (da : α) (db : β)
    (hi : i < g.length) : (g.map f).getD i db = f (g.getD i da) := by
  rw [List.getD_eq_getElem _ _ (by simpa using hi), List.getD_eq_getElem _ _ hi]
  simp

theorem conv3same_length (a : List Int) : (conv3same a).length = max a.length 3 := by
  simp [conv3same]

theorem conv3same_entry (a : List Int) (h3 : 3 ≤ a.length) (i : Nat) (hi : i < a.length) :
    (conv3same a).getD i 0 =
    getZ a ((i : Int) - 1) + getZ a (i : Int) + getZ a ((i : Int) + 1) := by
  unfold conv3same
  dsimp only
  rw [getD_range_map _ _ i _ (by omega)]
  have hs : (min a.length 3 - 1) / 2 = 1 := by omega
  rw [hs]
  have e1 : (i : Int) + ((1 : Nat) : Int) - 2 = (i : Int) - 1 := by push_cast; ring
  have e2 : (i : Int) + ((1 : Nat) : Int) - 1 = (i : Int) := by push_cast; ring
  have e3 : (i : Int) + ((1 : Nat) : Int) = (i : Int) + 1 := by push_cast; ring
  rw [e1, e2, e3]

theorem getZ_row (g : List (List Int)) (j : Int) (hj : 0 ≤ j) (c' : Int) :
    getZ (g.getD j.toNat []) c' = getO 0 g j c' := by
  unfold getZ getO
  by_cases hc : 0 ≤ c'
  · rw [if_pos hc, if_pos ⟨hj, hc⟩]
  · rw [if_neg hc, if_neg (by omega)]

theorem getO_zero_row_oob (g : List (List Int)) (j c' : Int)
    (h : j < 0 ∨ (g.length : Int) ≤ j) : getO 0 g j c' = 0 := by
  unfold getO
  split
  · rename_i hg
    rw [list_getD_default g j.toNat [] (by omega)]
    simp
  · rfl

theorem colOf_getZ (g : List (List Int)) (cc : Nat) (j : Int) :
    getZ (colOf g cc) j = getO 0 g j (cc : Int) := by
  unfold getZ colOf getO
  by_cases hj : 0 ≤ j
  · rw [if_pos hj, if_pos ⟨hj, by omega⟩]
    by_cases hlen : j.toNat < g.length
    · rw [getD_map_gen _ g j.toNat [] 0 hlen]
      simp
    · rw [list_getD_default _ j.toNat _ (by simpa using (by omega : g.length ≤ j.toNat)),
        list_getD_default g j.toNat [] (by omega)]
      simp
  · rw [if_neg hj, if_neg (by omega)]

theorem b1_row_entry (m : List (List Int)) (rows cols : Nat) (hm : Rect m rows cols)
    (h3 : 3 ≤ cols) (cc : Nat) (hcc : cc < cols) (j : Int) :
    getO 0 (m.map conv3same) j (cc : Int) =
    getO 0 m j ((cc : Int) - 1) + getO 0 m j (cc : Int) + getO 0 m j ((cc : Int) + 1) := by
  by_cases hj : 0 ≤ j ∧ j < (rows : Int)
  · have hjl : j.toNat < m.length := by rw [hm.1]; omega
    have hrl : (m.getD j.toNat []).length = cols := rect_row_len m rows cols hm j.toNat (by omega)
    rw [getO_pos 0 _ j _ hj.1 (by omega)]
    rw [getD_map_gen conv3same m j.toNat [] [] hjl]
    rw [show ((cc : Int)).toNat = cc by omega]
    rw [conv3same_entry _ (by omega) cc (by omega)]
    rw [getZ_row m j hj.1, getZ_row m j hj.1, getZ_row m j hj.1]
  · have hoob : j < 0 ∨ ((m.map conv3same).length : Int) ≤ j := by
      rw [List.length_map, hm.1]; omega
    have hoob2 : j < 0 ∨ ((m.length : Nat) : Int) ≤ j := by rw [hm.1]; omega
    rw [getO_zero_row_oob _ _ _ hoob, getO_zero_row_oob _ _ _ hoob2,
      getO_zero_row_oob _ _ _ hoob2, getO_zero_row_oob _ _ _ hoob2]
    simp

theorem initBoard_dims (rows cols : Nat) (data : List (List Int)) (b : Board)
    (h : initBoard rows cols data = some b) (hr : 0 < rows) (hc : 0 < cols) :
    3 ≤ rows ∧ 3 ≤ cols := by
  obtain ⟨hdata, hrowchk, hcolchk, rfl⟩ := initBoard_some rows cols data b h
  have hmrect : Rect (minesNorm data) rows cols := by
    constructor
    · rw [minesNorm, List.length_map]; exact hdata.1
    · intro row hrow
      rcases List.mem_map.1 hrow with ⟨row0, hrow0, rfl⟩
      rw [List.length_map]
      exact hdata.2 _ hrow0
  have hcols : 3 ≤ cols := by
    have h0 : (minesNorm data).getD 0 [] ∈ minesNorm data :=
      getD_row_mem _ 0 [] (by rw [hmrect.1]; omega)
    have hlen := hrowchk (conv3same ((minesNorm data).getD 0 []))
      (List.mem_map.2 ⟨_, h0, rfl⟩)
    rw [conv3same_length, hmrect.2 _ h0] at hlen
    omega
  have hrows : 3 ≤ rows := by
    have hlen := hcolchk 0 (List.mem_range.2 hc)
    rw [conv3same_length] at hlen
    have : (colOf ((minesNorm data).map conv3same) 0).length = rows := by
      rw [colOf, List.length_map, List.length_map, hmrect.1]
    rw [this] at hlen
    omega
  exact ⟨hrows, hcols⟩

theorem range_getD (n i d : Nat) (hi : i < n) : (List.range n).getD i d = i := by
  rw [List.getD_eq_getElem _ _ (by simpa using hi)]
  simp

theorem initBoard_counts (rows cols : Nat) (data : List (List Int)) (b : Board)
    (h : initBoard rows cols data = some b) :
    ∀ r, r < rows → ∀ c, c < cols →
      getO 0 b.board (r : Int) (c : Int) = windowSum b.mines (r : Int) (c : Int) := by
  intro r hr c hc
  obtain ⟨hrows, hcols⟩ := initBoard_dims rows cols data b h (by omega) (by omega)
  obtain ⟨hdata, hrowchk, hcolchk, rfl⟩ := initBoard_some rows cols data b h
  have hmrect : Rect (minesNorm data) rows cols := by
    constructor
    · rw [minesNorm, List.length_map]; exact hdata.1
    · intro row hrow
      rcases List.mem_map.1 hrow with ⟨row0, hrow0, rfl⟩
      rw [List.length_map]
      exact hdata.2 _ hrow0
  show getO 0 ((List.range rows).map _) (r : Int) (c : Int) = windowSum (minesNorm data) _ _
  rw [getO_pos 0 _ _ _ (by omega) (by omega)]
  rw [show ((r : Int)).toNat = r by omega, show ((c : Int)).toNat = c by omega]
  rw [getD_map_gen _ (List.range rows) r 0 [] (by simpa using hr)]
  rw [range_getD rows r 0 hr]
  rw [getD_map_gen _ (List.range cols) c 0 0 (by simpa using hc)]
  rw [range_getD cols c 0 hc]
  have hcol_len : (colOf ((minesNorm data).map conv3same) c).length = rows := by
    rw [colOf, List.length_map, List.length_map, hmrect.1]
  rw [conv3same_entry _ (by omega) r (by omega)]
  rw [colOf_getZ, colOf_getZ, colOf_getZ]
  rw [b1_row_entry (minesNorm data) rows cols hmrect hcols c hc ((r : Int) - 1),
    b1_row_entry (minesNorm data) rows cols hmrect hcols c hc (r : Int),
    b1_row_entry (minesNorm data) rows cols hmrect hcols c hc ((r : Int) + 1)]
  unfold windowSum
  ring

theorem minesNorm_vals01 (data : List (List Int)) : Vals01 (minesNorm data) := by
  intro row hrow x hx
  rcases List.mem_map.1 hrow with ⟨row0, _, rfl⟩
  rcases List.mem_map.1 hx with ⟨y, _, rfl⟩
  by_cases h : 0 < y
  · right; simp [h]
  · left; simp [h]

theorem vals01_sum_eq_countP : ∀ (l : List Int), (∀ x ∈ l, x = 0 ∨ x = 1) →
    l.sum = (l.countP (fun x => x != 0) : Int) := by
  intro l
  induction l with
  | nil => intro _; simp
  | cons a t ih =>
    intro h
    have ht := ih (fun x hx => h x (by simp [hx]))
    rcases h a (by simp) with rfl | rfl
    · simp [List.countP_cons, ht]
    · simp only [List.sum_cons, List.countP_cons, ht]
      norm_num
      ring

theorem vals01_sumGrid : ∀ (g : List (List Int)), Vals01 g →
    sumGrid g = (ccountG g : Int) := by
  intro g
  induction g with
  | nil => intro _; simp [sumGrid, ccountG]
  | cons row t ih =>
    intro hv
    have hrow := vals01_sum_eq_countP row (hv row (by simp))
    have ht := ih (fun r hr x hx => hv r (by simp [hr]) x hx)
    simp only [sumGrid, ccountG, List.map_cons, List.sum_cons] at ht ⊢
    rw [hrow, ht]
    push_cast
    ring

theorem windowSum_adj8 (m : List (List Int)) (r c : Int) :
    windowSum m r c = adj8 m r c + getO 0 m r c := by
  unfold windowSum adj8
  ring

theorem initBoard_wf (rows cols : Nat) (data : List (List Int)) (b : Board)
    (h : initBoard rows cols data = some b) : WF b := by
  have hinv := initBoard_covinv rows cols data b h
  have hcounts := initBoard_counts rows cols data b h
  obtain ⟨hdata, hrowchk, hcolchk, hb⟩ := initBoard_some rows cols data b h
  have hmrect : Rect (minesNorm data) rows cols := by
    constructor
    · rw [minesNorm, List.length_map]; exact hdata.1
    · intro row hrow
      rcases List.mem_map.1 hrow with ⟨row0, hrow0, rfl⟩
      rw [List.length_map]
      exact hdata.2 _ hrow0
  subst hb
  refine ⟨hmrect, ?_, hinv.1, minesNorm_vals01 data, hinv.2.1, hinv.2.2, ?_, ?_⟩
  · constructor
    · simp
    · intro row hrow
      rcases List.mem_map.1 hrow with ⟨i, _, rfl⟩
      simp
  · show sumGrid (minesNorm data) = _
    exact vals01_sumGrid _ (minesNorm_vals01 data)
  · exact hcounts

theorem c3_counts_and_hints :
    (∀ (rows cols : Nat) (data : List (List Int)) (b : Board),
      initBoard rows cols data = some b →
      ∀ r, r < b.size0 → ∀ c, c < b.size1 →
        getO 0 b.board (r : Int) (c : Int) = windowSum b.mines (r : Int) (c : Int)) ∧
    (∀ (b : Board), WF b → ∀ (r c : Int), inB b r c →
      getO 0 b.covered r c = 0 → getO 0 b.mines r c = 0 →
      getsquare b r c = adj8 b.mines r c) := by
  constructor
  · intro rows cols data b h r hr c hc
    have hc3 := initBoard_counts rows cols data b h
    obtain ⟨_, _, _, hb⟩ := initBoard_some rows cols data b h
    subst hb
    exact hc3 r hr c hc
  · intro b hwf r c hin hcov hmine
    obtain ⟨h0, h1, h2, h3⟩ := hin
    unfold getsquare getsquareO
    rw [if_neg ((inB_iff b r c).1 ⟨h0, h1, h2, h3⟩), if_neg (fun hh => hh hcov),
      if_neg (fun hh => hh hmine)]
    have hcounts := hwf.2.2.2.2.2.2.2 r.toNat (by omega) c.toNat (by omega)
    rw [show ((r.toNat : Nat) : Int) = r by omega,
      show ((c.toNat : Nat) : Int) = c by omega] at hcounts
    rw [hcounts, windowSum_adj8, hmine]
    ring

set_option maxRecDepth 10000 in
theorem c3_counts_and_hints_witness :
    (initBoard 3 3 cexMines = some cexBoard ∧
      getO 0 cexBoard.board 1 1 = windowSum cexBoard.mines 1 1) ∧
    (WF (reveal cexBoard 0 2).1 ∧
      getsquare (reveal cexBoard 0 2).1 1 1 = adj8 (reveal cexBoard 0 2).1.mines 1 1) :=
  ⟨⟨by decide, c3_counts_and_hints.1 3 3 cexMines cexBoard (by decide) 1 (by decide) 1 (by decide)⟩,
   ⟨by decide, c3_counts_and_hints.2 (reveal cexBoard 0 2).1 (by decide) 1 1 (by decide)
      (by decide) (by decide)⟩⟩

theorem reveal_uncovers (b : Board) (r c : Int) (hrect : Rect b.covered b.size0 b.size1)
    (hin : inB b r c) (hcov : getO 0 b.covered r c ≠ 0) :
    getO 0 (reveal b r c).1.covered r c = 0 := by
  obtain ⟨h0, h1, h2, h3⟩ := hin
  have hself : getO 0 (setCell b.covered r c 0) r c = 0 :=
    getO_setCell_self b.covered b.size0 b.size1 r c 0 0 hrect h0 h1 h2 h3
  have hwc : (winCheck (uncoverB b r c)).covered = setCell b.covered r c 0 :=
    (winCheck_fields (uncoverB b r c)).1
  by_cases hmine : getO 0 b.mines r c ≠ 0
  · rw [reveal_mine_case b r c ⟨h0, h1, h2, h3⟩ hcov hmine]
    show getO 0 (winCheck (uncoverB b r c)).covered r c = 0
    rw [hwc]
    exact hself
  · by_cases hz : getO 0 b.board r c = 0
    · rw [reveal_zero_case b r c ⟨h0, h1, h2, h3⟩ hcov hmine hz]
      have hfold := foldl_hold (fun s p => (revealGo 0 (b.size0 * b.size1 - 1) s p.1 p.2).1)
        (fun s => getO 0 s.covered r c = 0)
        (fun s p hs => by
          rcases revealGo_cov 0 (b.size0 * b.size1 - 1) s p.1 p.2 0 r c with hk | hk
          · rw [hk]; exact hs
          · exact hk)
        (nbrs r c) (winCheck (uncoverB b r c))
        (by show getO 0 (winCheck (uncoverB b r c)).covered r c = 0
            rw [hwc]; exact hself)
      exact hfold
    · rw [reveal_pos_case b r c ⟨h0, h1, h2, h3⟩ hcov hmine hz]
      show getO 0 (winCheck (uncoverB b r c)).covered r c = 0
      rw [hwc]
      exact hself

theorem adj8_bounds (m : List (List Int)) (hv : Vals01 m) (r c : Int) :
    0 ≤ adj8 m r c ∧ adj8 m r c ≤ 8 := by
  have b01 : ∀ x y : Int, 0 ≤ getO 0 m x y ∧ getO 0 m x y ≤ 1 := by
    intro x y
    rcases getO_vals01 m hv x y with h | h <;> omega
  have t1 := b01 (r-1) (c-1)
  have t2 := b01 (r-1) c
  have t3 := b01 (r-1) (c+1)
  have t4 := b01 r (c-1)
  have t6 := b01 r (c+1)
  have t7 := b01 (r+1) (c-1)
  have t8 := b01 (r+1) c
  have t9 := b01 (r+1) (c+1)
  unfold adj8
  omega

theorem safe_reveal_code (b : Board) (r c : Int) (hwf : WF b) (hin : inB b r c)
    (hcov : getO 0 b.covered r c ≠ 0) (hmine : getO 0 b.mines r c = 0) :
    (reveal b r c).2 = 1 ∧
    getsquare (reveal b r c).1 r c = getO 0 b.board r c ∧
    0 ≤ getO 0 b.board r c ∧ getO 0 b.board r c ≤ 8 := by
  obtain ⟨h0, h1, h2, h3⟩ := hin
  have hst := revealGo_statics 0 (b.size0 * b.size1) b r c
  have huncov := reveal_uncovers b r c hwf.2.2.1 ⟨h0, h1, h2, h3⟩ hcov
  have hbounds : getO 0 b.board r c = windowSum b.mines r c := by
    have hcounts := hwf.2.2.2.2.2.2.2 r.toNat (by omega) c.toNat (by omega)
    rw [show ((r.toNat : Nat) : Int) = r by omega,
      show ((c.toNat : Nat) : Int) = c by omega] at hcounts
    exact hcounts
  have hval : getO 0 b.board r c = adj8 b.mines r c := by
    rw [hbounds, windowSum_adj8, hmine]
    ring
  refine ⟨?_, ?_, ?_⟩
  · by_cases hz : getO 0 b.board r c = 0
    · rw [reveal_zero_case b r c ⟨h0, h1, h2, h3⟩ hcov (fun h => h hmine) hz]
    · rw [reveal_pos_case b r c ⟨h0, h1, h2, h3⟩ hcov (fun h => h hmine) hz]
  · unfold reveal getsquare getsquareO
    rw [if_neg (by
      rw [hst.2.2.1, hst.2.2.2.1]
      exact (inB_iff b r c).1 ⟨h0, h1, h2, h3⟩)]
    rw [if_neg (fun hh => hh huncov)]
    rw [if_neg (by rw [hst.1]; exact fun hh => hh hmine)]
    show getO 0 (revealGo 0 (b.size0 * b.size1) b r c).1.board r c = _
    rw [hst.2.1]
  · rw [hval]
    exact adj8_bounds b.mines hwf.2.2.2.1 r c

/-- Claim C5 code bug: the claim's own example, a 1x1 board with zero
mines, cannot even be constructed: `np.convolve(row, [1,1,1], 'same')`
returns an array of length `max(1, 3) = 3`, which cannot be assigned back
into a length-1 board row, so `__init__` (and hence `fromdimensions((1,1), 0)`)
raises; in the embedding the construction returns `none`. The general part
of the claim holds on constructible boards (see `safe_reveal_code`): a
reveal of a covered in-bounds non-mine cell returns code 1 and its hint,
readable through `getsquare`, is the adjacency count in 0..8. -/
theorem c5_one_by_one_crash :
    initBoard 1 1 [[0]] = none ∧ fromdimensions 1 1 0 [] = none := by
  exact ⟨by decide, by decide⟩

theorem setCellN_eq (g : List (List Int)) (r c : Nat) (v : Int) :
    setCellN g r c v = setCell g (r : Int) (c : Int) v := by
  unfold setCellN setCell
  rw [if_pos ⟨by omega, by omega⟩]
  simp

theorem grid_read_zero (g : List (List Int)) (hz : ∀ row ∈ g, ∀ x ∈ row, x = 0)
    (x y : Int) : getO 0 g x y = 0 := by
  unfold getO
  split
  · by_cases hr : x.toNat < g.length
    · by_cases hc : y.toNat < (g.getD x.toNat []).length
      · exact hz _ (getD_row_mem g x.toNat [] hr) _ (getD_row_mem _ y.toNat 0 hc)
      · rw [list_getD_default _ _ _ (by omega)]
    · rw [list_getD_default g x.toNat [] (by omega)]
      simp
  · rfl

theorem zeros_grid_rect (R C : Nat) :
    Rect ((List.range R).map (fun _ => (List.range C).map (fun _ => (0 : Int)))) R C := by
  constructor
  · simp
  · intro row hrow
    rcases List.mem_map.1 hrow with ⟨i, _, rfl⟩
    simp

theorem zeros_grid_zero (R C : Nat) :
    ∀ row ∈ (List.range R).map (fun _ => (List.range C).map (fun _ => (0 : Int))),
      ∀ x ∈ row, x = 0 := by
  intro row hrow x hx
  rcases List.mem_map.1 hrow with ⟨i, _, rfl⟩
  rcases List.mem_map.1 hx with ⟨j, _, rfl⟩
  rfl

theorem zeros_grid_vals (R C : Nat) :
    Vals01 ((List.range R).map (fun _ => (List.range C).map (fun _ => (0 : Int)))) :=
  fun row hrow x hx => Or.inl (zeros_grid_zero R C row hrow x hx)

theorem zeros_grid_sum (R C : Nat) :
    sumGrid ((List.range R).map (fun _ => (List.range C).map (fun _ => (0 : Int)))) = 0 := by
  unfold sumGrid
  apply List.sum_eq_zero
  intro x hx
  rcases List.mem_map.1 hx with ⟨row, hrow, rfl⟩
  apply List.sum_eq_zero
  intro y hy
  exact zeros_grid_zero R C row hrow y hy

theorem sumGrid_setCell (g : List (List Int)) (R C : Nat) (hg : Rect g R C)
    (r c : Nat) (hr : r < R) (hc : c < C) (v : Int) :
    sumGrid (setCell g (r : Int) (c : Int) v) =
    sumGrid g + v - getO 0 g (r : Int) (c : Int) := by
  unfold setCell
  rw [if_pos ⟨by omega, by omega⟩]
  rw [show ((r : Int)).toNat = r by omega, show ((c : Int)).toNat = c by omega]
  unfold sumGrid
  rw [List.map_set]
  have hrl : r < g.length := by rw [hg.1]; omega
  have hcl : c < (g.getD r []).length := by rw [rect_row_len g R C hg r hr]; omega
  have houter := int_sum_set (g.map (fun row => row.sum)) r ((g.getD r []).set c v).sum
    (by simpa using hrl)
  rw [getD_map_gen (fun row => row.sum) g r [] 0 hrl] at houter
  have hinner := int_sum_set (g.getD r []) c v hcl
  rw [getO_pos 0 g _ _ (by omega) (by omega)]
  rw [show ((r : Int)).toNat = r by omega, show ((c : Int)).toNat = c by omega]
  omega

theorem fold_mines (C : Nat) : ∀ (sample : List Nat) (g : List (List Int)) (R : Nat),
    Rect g R C → Vals01 g → (∀ i ∈ sample, i < R * C) → sample.Nodup →
    (∀ i ∈ sample, getO 0 g ((i / C : Nat) : Int) ((i % C : Nat) : Int) = 0) →
    Rect (sample.foldl (fun g i => setCellN g (i / C) (i % C) 1) g) R C ∧
    Vals01 (sample.foldl (fun g i => setCellN g (i / C) (i % C) 1) g) ∧
    sumGrid (sample.foldl (fun g i => setCellN g (i / C) (i % C) 1) g) =
      sumGrid g + sample.length := by
  intro sample
  induction sample with
  | nil =>
    intro g R hg hv _ _ _
    exact ⟨hg, hv, by simp⟩
  | cons i rest ih =>
    intro g R hg hv hlt hnd hfresh
    have hC : 0 < C := by
      rcases Nat.eq_zero_or_pos C with hc | hc
      · subst hc
        have := hlt i (by simp)
        simp at this
      · exact hc
    have hiR : i / C < R := by
      have hi := hlt i (by simp)
      exact Nat.div_lt_of_lt_mul (by rw [Nat.mul_comm] at hi; exact hi)
    have hiC : i % C < C := Nat.mod_lt _ hC
    rw [List.foldl_cons, setCellN_eq]
    have hg' := rect_setCell g R C ((i / C : Nat) : Int) ((i % C : Nat) : Int) 1 hg
    have hv' := vals01_setCell g ((i / C : Nat) : Int) ((i % C : Nat) : Int) 1 hv (Or.inr rfl)
    have hsum' := sumGrid_setCell g R C hg (i / C) (i % C) hiR hiC 1
    rw [hfresh i (by simp)] at hsum'
    have hfresh' : ∀ j ∈ rest,
        getO 0 (setCell g ((i / C : Nat) : Int) ((i % C : Nat) : Int) 1)
          ((j / C : Nat) : Int) ((j % C : Nat) : Int) = 0 := by
      intro j hj
      have hji : j ≠ i := by
        intro hk
        subst hk
        exact (List.nodup_cons.1 hnd).1 hj
      rw [getO_setCell_ne g _ _ _ _ 1 0 (by
        intro ⟨he1, he2⟩
        have hd1 := Nat.div_add_mod i C
        have hd2 := Nat.div_add_mod j C
        have e1 : j / C = i / C := by omega
        have e2 : j % C = i % C := by omega
        rw [e1, e2] at hd2
        omega)]
      exact hfresh j (by simp [hj])
    have hres := ih (setCell g ((i / C : Nat) : Int) ((i % C : Nat) : Int) 1) R hg' hv'
      (fun j hj => hlt j (by simp [hj])) (List.nodup_cons.1 hnd).2 hfresh'
    refine ⟨hres.1, hres.2.1, ?_⟩
    rw [hres.2.2, hsum']
    simp only [List.length_cons]
    push_cast
    ring

theorem minesNorm_rect (g : List (List Int)) (R C : Nat) (hg : Rect g R C) :
    Rect (minesNorm g) R C := by
  constructor
  · rw [minesNorm, List.length_map]
    exact hg.1
  · intro row hrow
    rcases List.mem_map.1 hrow with ⟨row0, hrow0, rfl⟩
    rw [List.length_map]
    exact hg.2 _ hrow0

theorem minesNorm_id01 (g : List (List Int)) (hv : Vals01 g) : minesNorm g = g := by
  unfold minesNorm
  have hrow : ∀ row ∈ g, row.map (fun x => if 0 < x then (1 : Int) else 0) = row := by
    intro row hrowm
    have hx : ∀ x ∈ row, (if 0 < x then (1 : Int) else 0) = x := by
      intro x hxm
      rcases hv row hrowm x hxm with rfl | rfl <;> simp
    rw [List.map_congr_left hx]
    exact List.map_id row
  rw [List.map_congr_left hrow]
  exact List.map_id g

theorem initBoard_success (R C : Nat) (g : List (List Int)) (hg : Rect g R C)
    (hR : 3 ≤ R) (hC : 3 ≤ C) : ∃ b, initBoard R C g = some b := by
  unfold initBoard
  rw [if_pos ⟨hg.1, hg.2⟩]
  dsimp only
  rw [if_pos (by
    intro row hrow
    rcases List.mem_map.1 hrow with ⟨row0, hrow0, rfl⟩
    rw [conv3same_length, (minesNorm_rect g R C hg).2 _ hrow0]
    omega)]
  rw [if_pos (by
    intro cc _
    rw [conv3same_length]
    have : (colOf ((minesNorm g).map conv3same) cc).length = R := by
      rw [colOf, List.length_map, List.length_map, (minesNorm_rect g R C hg).1]
    rw [this]
    omega)]
  exact ⟨_, rfl⟩

theorem initBoard_fail_dims (R C : Nat) (g : List (List Int)) (hg : Rect g R C)
    (hbad : ¬(3 ≤ R ∧ 3 ≤ C)) (hnz : ¬(R = 0 ∧ C = 0)) : initBoard R C g = none := by
  have hmr := minesNorm_rect g R C hg
  unfold initBoard
  rw [if_pos ⟨hg.1, hg.2⟩]
  dsimp only
  by_cases hR0 : R = 0
  · subst hR0
    have hgnil : minesNorm g = [] := List.length_eq_zero.1 hmr.1
    have hC0 : 0 < C := by omega
    rw [hgnil]
    rw [if_pos (by intro row hrow; simp at hrow)]
    rw [if_neg (by
      intro hall
      have := hall 0 (List.mem_range.2 hC0)
      rw [conv3same_length] at this
      have hcnil : colOf ([].map conv3same) 0 = [] := rfl
      rw [hcnil] at this
      simp at this)]
  · by_cases hC3 : 3 ≤ C
    · have hR3 : ¬ 3 ≤ R := fun h => hbad ⟨h, hC3⟩
      rw [if_pos (by
        intro row hrow
        rcases List.mem_map.1 hrow with ⟨row0, hrow0, rfl⟩
        rw [conv3same_length, hmr.2 _ hrow0]
        omega)]
      rw [if_neg (by
        intro hall
        have := hall 0 (List.mem_range.2 (by omega))
        rw [conv3same_length] at this
        have hcl : (colOf ((minesNorm g).map conv3same) 0).length = R := by
          rw [colOf, List.length_map, List.length_map, hmr.1]
        rw [hcl] at this
        omega)]
    · rw [if_neg (by
        intro hall
        have h0 : (minesNorm g).getD 0 [] ∈ minesNorm g :=
          getD_row_mem _ 0 [] (by rw [hmr.1]; omega)
        have := hall (conv3same ((minesNorm g).getD 0 []))
          (List.mem_map.2 ⟨_, h0, rfl⟩)
        rw [conv3same_length, hmr.2 _ h0] at this
        omega)]

theorem fold_nil_grid (C : Nat) : ∀ (sample : List Nat),
    sample.foldl (fun g i => setCellN g (i / C) (i % C) 1) ([] : List (List Int)) = [] := by
  intro sample
  induction sample with
  | nil => rfl
  | cons i rest ih =>
    rw [List.foldl_cons]
    have : setCellN ([] : List (List Int)) (i / C) (i % C) 1 = [] := rfl
    rw [this, ih]

theorem fold_rect (C : Nat) : ∀ (sample : List Nat) (g : List (List Int)) (R : Nat),
    Rect g R C →
    Rect (sample.foldl (fun g i => setCellN g (i / C) (i % C) 1) g) R C := by
  intro sample
  induction sample with
  | nil => intro g R hg; exact hg
  | cons i rest ih =>
    intro g R hg
    rw [List.foldl_cons, setCellN_eq]
    exact ih _ R (rect_setCell g R C _ _ 1 hg)

/-- Counterexample to claim C7 as stated: the configuration
`rows = cols = 2, numMines = 0` is valid (nonnegative mine count not above
`rows*cols`, positive dimensions), yet construction fails because the
convolution result of a length-2 row has length `max(2,3) = 3`; and the
invalid configuration `rows = cols = 0` (dimensions not positive) does not
fail when `numMines = 0` — it yields an empty fully-constructed board. -/
theorem c7_counterexample :
    fromdimensions 2 2 0 [] = none ∧
    fromdimensions 0 0 0 [] = some emptyBoard := by
  exact ⟨by decide, by decide⟩

/-- Claim C7 amended: `fromdimensions` fails (in Python: a numpy
`ValueError`; there is no dedicated InvalidConfiguration type) whenever
`numMines < 0`, `numMines > rows*cols`, `rows < 0` or `cols < 0`; every
configuration with a dimension below 3 also fails at the adjacency
computation — except the degenerate `rows = cols = 0` with `numMines = 0`,
which succeeds with an empty board. In every failure no Board is produced
at all. For `rows ≥ 3`, `cols ≥ 3` and `0 ≤ numMines ≤ rows*cols` it
returns a fully initialized well-formed Board with exactly `numMines`
distinct mine cells. -/
theorem c7_amended :
    (∀ (rows cols nm : Int) (sample : List Nat),
      nm < 0 ∨ rows * cols < nm ∨ rows < 0 ∨ cols < 0 →
      fromdimensions rows cols nm sample = none) ∧
    (∀ (rows cols : Int), 0 ≤ rows → 0 ≤ cols →
      ¬(3 ≤ rows ∧ 3 ≤ cols) → ¬(rows = 0 ∧ cols = 0) →
      ∀ (nm : Int) (sample : List Nat), fromdimensions rows cols nm sample = none) ∧
    (∀ sample : List Nat, fromdimensions 0 0 0 sample = some emptyBoard) ∧
    (∀ (rows cols nm : Int) (sample : List Nat),
      3 ≤ rows → 3 ≤ cols → 0 ≤ nm → nm ≤ rows * cols →
      sample.Nodup → sample.length = nm.toNat →
      (∀ i ∈ sample, i < rows.toNat * cols.toNat) →
      ∃ b, fromdimensions rows cols nm sample = some b ∧ WF b ∧
        b.num_mines = nm ∧ b.size0 = rows.toNat ∧ b.size1 = cols.toNat ∧
        b.num_covered = rows * cols ∧ b.game_state = GameState.in_progress) := by
  refine ⟨?_, ?_, ?_, ?_⟩
  · intro rows cols nm sample h
    unfold fromdimensions
    by_cases hd : rows < 0 ∨ cols < 0
    · rw [if_pos hd]
    · rw [if_neg hd]
      rw [if_pos (by
        rcases h with h | h | h | h
        · exact Or.inl h
        · exact Or.inr h
        · exact absurd (Or.inl h) hd
        · exact absurd (Or.inr h) hd)]
  · intro rows cols hr0 hc0 hbad hnz nm sample
    unfold fromdimensions
    rw [if_neg (by omega)]
    by_cases hnm : nm < 0 ∨ rows * cols < nm
    · rw [if_pos hnm]
    · rw [if_neg hnm]
      dsimp only
      apply initBoard_fail_dims
      · exact fold_rect cols.toNat sample _ rows.toNat (zeros_grid_rect _ _)
      · intro ⟨h3r, h3c⟩
        exact hbad ⟨by omega, by omega⟩
      · intro ⟨h0r, h0c⟩
        exact hnz ⟨by omega, by omega⟩
  · intro sample
    unfold fromdimensions
    rw [if_neg (by omega), if_neg (by omega)]
    dsimp only
    rw [show (List.range (0 : Int).toNat).map
        (fun _ => (List.range (0 : Int).toNat).map (fun _ => (0 : Int))) =
        ([] : List (List Int)) from rfl]
    rw [fold_nil_grid]
    decide
  · intro rows cols nm sample h3r h3c h0nm hnmle hnd hlen hbound
    unfold fromdimensions
    rw [if_neg (by omega), if_neg (not_or.2 ⟨by omega, not_lt.2 hnmle⟩)]
    dsimp only
    have hzr := zeros_grid_rect rows.toNat cols.toNat
    have hfold := fold_mines cols.toNat sample _ rows.toNat hzr
      (zeros_grid_vals _ _) hbound hnd
      (fun i _ => grid_read_zero _ (zeros_grid_zero _ _) _ _)
    obtain ⟨hrectm, hvalsm, hsumm⟩ := hfold
    rw [zeros_grid_sum] at hsumm
    obtain ⟨b, hb⟩ := initBoard_success rows.toNat cols.toNat _ hrectm
      (by omega) (by omega)
    refine ⟨b, hb, initBoard_wf _ _ _ _ hb, ?_⟩
    obtain ⟨_, _, _, hbeq⟩ := initBoard_some _ _ _ _ hb
    subst hbeq
    refine ⟨?_, rfl, rfl, ?_, rfl⟩
    · show sumGrid (minesNorm _) = nm
      rw [minesNorm_id01 _ hvalsm, hsumm, hlen]
      omega
    · show ((rows.toNat * cols.toNat : Nat) : Int) = rows * cols
      push_cast
      rw [Int.toNat_of_nonneg (by omega), Int.toNat_of_nonneg (by omega)]

set_option maxRecDepth 10000 in
/-- Witness for the amended C7: a valid 4x3 configuration with two sampled
mine positions produces a fully initialized board with two mines. -/
theorem c7_amended_witness :
    ((0 : Int) ≤ 2 ∧ (2 : Int) ≤ 4 * 3 ∧ ([0, 7] : List Nat).Nodup) ∧
    (∃ b, fromdimensions 4 3 2 [0, 7] = some b ∧ WF b ∧ b.num_mines = 2 ∧
      b.size0 = (4 : Int).toNat ∧ b.size1 = (3 : Int).toNat ∧
      b.num_covered = 4 * 3 ∧ b.game_state = GameState.in_progress) :=
  ⟨by decide, c7_amended.2.2.2 4 3 2 [0, 7] (by decide) (by decide) (by decide)
    (by decide) (by decide) (by decide) (by decide)⟩

theorem reach_elem (b : Board) (z p : Int × Int) (h : ReachZ b z p) :
    inB b p.1 p.2 ∧ getO 0 b.board p.1 p.2 = 0 := by
  induction h with
  | refl hin hz => exact ⟨hin, hz⟩
  | step p q _ _ hin hz _ => exact ⟨hin, hz⟩

theorem reach_src (b : Board) (z p : Int × Int) (h : ReachZ b z p) :
    inB b z.1 z.2 ∧ getO 0 b.board z.1 z.2 = 0 := by
  induction h with
  | refl hin hz => exact ⟨hin, hz⟩
  | step p q _ _ _ _ ih => exact ih

theorem reach_trans (b : Board) (z q w : Int × Int)
    (h1 : ReachZ b z q) (h2 : ReachZ b q w) : ReachZ b z w := by
  induction h2 with
  | refl _ _ => exact h1
  | step p u hp hmem hin hz ih => exact ReachZ.step p u ih hmem hin hz

theorem reach_congr (s b : Board) (hb : s.board = b.board) (h0 : s.size0 = b.size0)
    (h1 : s.size1 = b.size1) (z p : Int × Int) (h : ReachZ s z p) : ReachZ b z p := by
  have hin : ∀ x y : Int, inB s x y → inB b x y := by
    intro x y hxy
    unfold inB at hxy ⊢
    rw [h0, h1] at hxy
    exact hxy
  induction h with
  | refl hinz hz =>
    exact ReachZ.refl (hin _ _ hinz) (by rw [← hb]; exact hz)
  | step p q hp hmem hinq hz ih =>
    exact ReachZ.step p q ih hmem (hin _ _ hinq) (by rw [← hb]; exact hz)

theorem touched_congr (s b : Board) (hb : s.board = b.board) (h0 : s.size0 = b.size0)
    (h1 : s.size1 = b.size1) (z p : Int × Int) (h : Touched s z p) : Touched b z p := by
  rcases h with rfl | ⟨q, hq, hmem⟩
  · exact Or.inl rfl
  · exact Or.inr ⟨q, reach_congr s b hb h0 h1 z q hq, hmem⟩

theorem touched_chain (b : Board) (z q p : Int × Int) (hzin : inB b z.1 z.2)
    (hzz : getO 0 b.board z.1 z.2 = 0) (hmem : q ∈ nbrs z.1 z.2)
    (h : Touched b q p) : Touched b z p := by
  have hzr : ReachZ b z z := ReachZ.refl hzin hzz
  rcases h with rfl | ⟨w, hw, hpw⟩
  · exact Or.inr ⟨z, hzr, hmem⟩
  · have hq := reach_src b q w hw
    have hzq : ReachZ b z q := ReachZ.step z q hzr hmem hq.1 hq.2
    exact Or.inr ⟨w, reach_trans b z q w hzq hw, hpw⟩

theorem setCell_zero_inv (g : List (List Int)) (r c p1 p2 : Int)
    (h : getO 0 (setCell g r c 0) p1 p2 = 0) :
    getO 0 g p1 p2 = 0 ∨ (p1 = r ∧ p2 = c) := by
  by_cases hne : p1 = r ∧ p2 = c
  · exact Or.inr hne
  · left
    rw [← getO_setCell_ne g r c p1 p2 0 0 hne]
    exact h

theorem revealGo_wf (fuel : Nat) (b : Board) (r c : Int) (hwf : WF b) :
    WF (revealGo 0 fuel b r c).1 := by
  have hst := revealGo_statics 0 fuel b r c
  have hcinv := revealGo_covinv 0 fuel b r c ⟨hwf.2.2.1, hwf.2.2.2.2.1, hwf.2.2.2.2.2.1⟩
  refine ⟨?_, ?_, hcinv.1, ?_, hcinv.2.1, hcinv.2.2, ?_, ?_⟩
  · rw [hst.1, hst.2.2.1, hst.2.2.2.1]
    exact hwf.1
  · rw [hst.2.1, hst.2.2.1, hst.2.2.2.1]
    exact hwf.2.1
  · rw [hst.1]
    exact hwf.2.2.2.1
  · rw [hst.2.2.2.2, hst.1]
    exact hwf.2.2.2.2.2.2.1
  · rw [hst.2.1, hst.1, hst.2.2.1, hst.2.2.2.1]
    exact hwf.2.2.2.2.2.2.2

theorem revealGo_sound : ∀ (fuel : Nat) (b : Board) (r c p1 p2 : Int),
    getO 0 (revealGo 0 fuel b r c).1.covered p1 p2 = 0 →
    getO 0 b.covered p1 p2 = 0 ∨ Touched b (r, c) (p1, p2) := by
  intro fuel
  induction fuel with
  | zero => intro b r c p1 p2 h; exact Or.inl h
  | succ fuel ih =>
    intro b r c p1 p2 h
    rw [revealGo_succ] at h
    split at h
    · exact Or.inl h
    split at h
    · exact Or.inl h
    rename_i hb hcov
    split at h
    · dsimp only at h
      rw [(winCheck_fields (uncoverB b r c)).1] at h
      rcases setCell_zero_inv b.covered r c p1 p2 h with h0 | ⟨rfl, rfl⟩
      · exact Or.inl h0
      · exact Or.inr (Or.inl rfl)
    split at h
    · rename_i hmine hz
      dsimp only at h
      have hfold : ∀ (L : List (Int × Int)) (s : Board), s.board = b.board →
          s.size0 = b.size0 → s.size1 = b.size1 →
          getO 0 (L.foldl (fun s p => (revealGo 0 fuel s p.1 p.2).1) s).covered p1 p2 = 0 →
          getO 0 s.covered p1 p2 = 0 ∨ ∃ q ∈ L, Touched b q (p1, p2) := by
        intro L
        induction L with
        | nil => intro s _ _ _ hs; exact Or.inl hs
        | cons a t ihL =>
          intro s hsb hs0 hs1 hs
          rw [List.foldl_cons] at hs
          have hstep := revealGo_statics 0 fuel s a.1 a.2
          rcases ihL (revealGo 0 fuel s a.1 a.2).1 (hstep.2.1.trans hsb)
            (hstep.2.2.1.trans hs0) (hstep.2.2.2.1.trans hs1) hs with h1 | h1
          · rcases ih s a.1 a.2 p1 p2 h1 with h2 | h2
            · exact Or.inl h2
            · right
              refine ⟨a, by simp, ?_⟩
              have ht := touched_congr s b hsb hs0 hs1 (a.1, a.2) (p1, p2) h2
              simpa using ht
          · rcases h1 with ⟨q, hq, ht⟩
            exact Or.inr ⟨q, by simp [hq], ht⟩
      have hB := winCheck_fields (uncoverB b r c)
      rcases hfold (nbrs r c) (winCheck (uncoverB b r c)) hB.2.2.2.1 hB.2.2.2.2.1
        hB.2.2.2.2.2.1 h with h1 | h1
      · rw [hB.1] at h1
        rcases setCell_zero_inv b.covered r c p1 p2 h1 with h0 | ⟨rfl, rfl⟩
        · exact Or.inl h0
        · exact Or.inr (Or.inl rfl)
      · rcases h1 with ⟨q, hq, ht⟩
        exact Or.inr (touched_chain b (r, c) q (p1, p2) ((inB_iff b r c).2 hb) hz hq ht)
    · dsimp only at h
      rw [(winCheck_fields (uncoverB b r c)).1] at h
      rcases setCell_zero_inv b.covered r c p1 p2 h with h0 | ⟨rfl, rfl⟩
      · exact Or.inl h0
      · exact Or.inr (Or.inl rfl)

theorem board_ne_of_mine (b : Board) (hwf : WF b) (r c : Int) (hin : inB b r c)
    (hmine : getO 0 b.mines r c ≠ 0) : getO 0 b.board r c ≠ 0 :=
  fun hz => hmine ((window_zero_mines b hwf r c hin hz).1)

theorem revealGo_closed : ∀ (fuel : Nat) (b : Board) (r c : Int) (S : List (Int × Int)),
    WF b → ccountG b.covered ≤ fuel →
    ClosedExcept b ((r, c) :: S) →
    ClosedExcept (revealGo 0 fuel b r c).1 S := by
  intro fuel
  induction fuel with
  | zero =>
    intro b r c S hwf hcc hce
    intro r' hr' c' hc' hcov0 hz0 q hq hqin
    left
    exact ccountG_zero b.covered b.size0 b.size1 0 q.1 q.2 hwf.2.2.1 (by omega)
      hqin.1 hqin.2.1 hqin.2.2.1 hqin.2.2.2
  | succ fuel ih =>
    intro b r c S hwf hcc hce
    rw [revealGo_succ]
    split
    · rename_i hbounds
      intro r' hr' c' hc' hcov0 hz0 q hq hqin
      rcases hce r' hr' c' hc' hcov0 hz0 q hq hqin with h | h
      · exact Or.inl h
      · rcases List.mem_cons.1 h with rfl | h2
        · exact absurd hbounds (by
            have := (inB_iff b r c).1 hqin
            exact this)
        · exact Or.inr h2
    split
    · rename_i hbounds hcov
      intro r' hr' c' hc' hcov0 hz0 q hq hqin
      rcases hce r' hr' c' hc' hcov0 hz0 q hq hqin with h | h
      · exact Or.inl h
      · rcases List.mem_cons.1 h with rfl | h2
        · exact Or.inl hcov
        · exact Or.inr h2
    rename_i hbounds hcov
    obtain ⟨hb0, hb1, hb2, hb3⟩ := (inB_iff b r c).2 hbounds
    have hB := winCheck_fields (uncoverB b r c)
    have hcovinvB := covinv_wu 0 b r c ⟨hwf.2.2.1, hwf.2.2.2.2.1, hwf.2.2.2.2.2.1⟩ hbounds hcov
    have hwfB : WF (winCheck (uncoverB b r c)) := by
      refine ⟨?_, ?_, hcovinvB.1.1, ?_, hcovinvB.1.2.1, hcovinvB.1.2.2, ?_, ?_⟩
      · rw [hB.2.2.1, hB.2.2.2.2.1, hB.2.2.2.2.2.1]
        exact hwf.1
      · rw [hB.2.2.2.1, hB.2.2.2.2.1, hB.2.2.2.2.2.1]
        exact hwf.2.1
      · rw [hB.2.2.1]
        exact hwf.2.2.2.1
      · rw [hB.2.2.2.2.2.2, hB.2.2.1]
        exact hwf.2.2.2.2.2.2.1
      · rw [hB.2.2.2.1, hB.2.2.1, hB.2.2.2.2.1, hB.2.2.2.2.2.1]
        exact hwf.2.2.2.2.2.2.2
    have hself : getO 0 (winCheck (uncoverB b r c)).covered r c = 0 := by
      rw [hB.1]
      exact getO_setCell_self b.covered b.size0 b.size1 r c 0 0 hwf.2.2.1 hb0 hb1 hb2 hb3
    have hmono : ∀ x y : Int, getO 0 b.covered x y = 0 →
        getO 0 (winCheck (uncoverB b r c)).covered x y = 0 := by
      intro x y hxy
      rw [hB.1]
      show getO 0 (setCell b.covered r c 0) x y = 0
      rcases getO_setCell_zero b.covered r c 0 x y with h | h
      · rw [h]
        exact hxy
      · exact h
    have hceBS : getO 0 b.board r c ≠ 0 →
        ClosedExcept (winCheck (uncoverB b r c)) S := by
      intro hzne
      intro r' hr' c' hc' hcov0 hz0 q hq hqin
      rw [hB.2.2.2.2.1] at hr'
      rw [hB.2.2.2.2.2.1] at hc'
      rw [hB.1] at hcov0
      rw [hB.2.2.2.1] at hz0
      rw [inB_wu b r c q.1 q.2] at hqin
      by_cases hp : (r' : Int) = r ∧ (c' : Int) = c
      · exfalso
        rw [hp.1, hp.2] at hz0
        exact hzne hz0
      · have hcovb : getO 0 b.covered (r' : Int) (c' : Int) = 0 := by
          rcases setCell_zero_inv b.covered r c (r' : Int) (c' : Int) hcov0 with h | h
          · exact h
          · exact absurd h hp
        rcases hce r' hr' c' hc' hcovb hz0 q hq hqin with h | h
        · exact Or.inl (hmono q.1 q.2 h)
        · rcases List.mem_cons.1 h with rfl | h2
          · exact Or.inl hself
          · exact Or.inr h2
    split
    · rename_i hmine
      exact hceBS (board_ne_of_mine b hwf r c ⟨hb0, hb1, hb2, hb3⟩ hmine)
    split
    · rename_i hmine hz
      have hceB : ClosedExcept (winCheck (uncoverB b r c)) (nbrs r c ++ S) := by
        intro r' hr' c' hc' hcov0 hz0 q hq hqin
        rw [hB.2.2.2.2.1] at hr'
        rw [hB.2.2.2.2.2.1] at hc'
        rw [hB.1] at hcov0
        rw [hB.2.2.2.1] at hz0
        rw [inB_wu b r c q.1 q.2] at hqin
        by_cases hp : (r' : Int) = r ∧ (c' : Int) = c
        · right
          apply List.mem_append_left
          rw [hp.1, hp.2] at hq
          exact hq
        · have hcovb : getO 0 b.covered (r' : Int) (c' : Int) = 0 := by
            rcases setCell_zero_inv b.covered r c (r' : Int) (c' : Int) hcov0 with h | h
            · exact h
            · exact absurd h hp
          rcases hce r' hr' c' hc' hcovb hz0 q hq hqin with h | h
          · exact Or.inl (hmono q.1 q.2 h)
          · rcases List.mem_cons.1 h with rfl | h2
            · exact Or.inl hself
            · exact Or.inr (List.mem_append_right _ h2)
      have hfoldCE : ∀ (L : List (Int × Int)) (s : Board) (T : List (Int × Int)),
          WF s → ccountG s.covered ≤ fuel → ClosedExcept s (L ++ T) →
          ClosedExcept (L.foldl (fun s p => (revealGo 0 fuel s p.1 p.2).1) s) T := by
        intro L
        induction L with
        | nil => intro s T _ _ hces; exact hces
        | cons a t ihL =>
          intro s T hwfs hccs hces
          rw [List.foldl_cons]
          apply ihL _ T (revealGo_wf fuel s a.1 a.2 hwfs)
            (Nat.le_trans (revealGo_ccount_le 0 fuel s a.1 a.2) hccs)
          rw [List.cons_append] at hces
          exact ih s a.1 a.2 (t ++ T) hwfs hccs hces
      have hccB : ccountG (winCheck (uncoverB b r c)).covered ≤ fuel := by
        have h2 := hcovinvB.2
        omega
      exact hfoldCE (nbrs r c) (winCheck (uncoverB b r c)) S hwfB hccB hceB
    · rename_i hmine hz
      exact hceBS hz

theorem closed_weaken (b : Board) (h : Closed b) (S : List (Int × Int)) :
    ClosedExcept b S := by
  intro r' hr' c' hc' hcov hz q hq hqin
  rcases h r' hr' c' hc' hcov hz q hq hqin with h2 | h2
  · exact Or.inl h2
  · exact absurd h2 (List.not_mem_nil q)

theorem reveal_closed (b : Board) (r c : Int) (hwf : WF b) (hclosed : Closed b) :
    Closed (reveal b r c).1 := by
  unfold reveal
  exact revealGo_closed (b.size0 * b.size1) b r c [] hwf
    (ccountG_le _ _ _ hwf.2.2.1) (closed_weaken b hclosed [(r, c)])

theorem closed_reach_uncovered (t : Board) (hcl : Closed t) (z : Int × Int)
    (hz0 : getO 0 t.covered z.1 z.2 = 0) :
    ∀ p, ReachZ t z p → getO 0 t.covered p.1 p.2 = 0 := by
  intro p h
  induction h with
  | refl _ _ => exact hz0
  | step p q hp hmem hqin hqz ihp =>
    have hpe := reach_elem t z p hp
    obtain ⟨a0, a1, a2, a3⟩ := hpe.1
    have e1 : ((p.1.toNat : Nat) : Int) = p.1 := by omega
    have e2 : ((p.2.toNat : Nat) : Int) = p.2 := by omega
    have happ := hcl p.1.toNat (by omega) p.2.toNat (by omega)
      (by rw [e1, e2]; exact ihp) (by rw [e1, e2]; exact hpe.2) q
      (by rw [e1, e2]; exact hmem) hqin
    rcases happ with h2 | h2
    · exact h2
    · exact absurd h2 (List.not_mem_nil q)

/-- Claim C2: revealing a covered in-bounds non-mine cell whose hint is 0
uncovers exactly the maximal 8-connected zero-hint region of that cell
(`ReachZ`) together with the bordering ring of its neighbours (`Touched`),
and nothing else; the cascade never uncovers a mine (a mine cell's covered
state is untouched), every touched cell is mine-free, and every touched
cell outside the region (the ring) has a nonzero hint. The hypothesis
`Closed b` — every uncovered zero-hint cell already has its neighbours
uncovered — holds for every freshly constructed board and is preserved by
every reveal (`closed_init_board`, `reveal_closed`), so it holds for every
reachable board state. -/
theorem c2_cascade (b : Board) (r c : Int) (hwf : WF b) (hclosed : Closed b)
    (hin : inB b r c) (hcov : getO 0 b.covered r c ≠ 0)
    (hmine : getO 0 b.mines r c = 0) (hz : getO 0 b.board r c = 0) :
    ∀ p1 p2 : Int, inB b p1 p2 →
      (getO 0 (reveal b r c).1.covered p1 p2 = 0 ↔
        (getO 0 b.covered p1 p2 = 0 ∨ Touched b (r, c) (p1, p2))) ∧
      (Touched b (r, c) (p1, p2) → getO 0 b.mines p1 p2 = 0) ∧
      (getO 0 b.mines p1 p2 ≠ 0 →
        getO 0 (reveal b r c).1.covered p1 p2 = getO 0 b.covered p1 p2) ∧
      (Touched b (r, c) (p1, p2) → ¬ ReachZ b (r, c) (p1, p2) →
        getO 0 b.board p1 p2 ≠ 0) := by
  intro p1 p2 hpin
  have hst := revealGo_statics 0 (b.size0 * b.size1) b r c
  have hclafter : Closed (reveal b r c).1 := reveal_closed b r c hwf hclosed
  have huncov : getO 0 (reveal b r c).1.covered r c = 0 :=
    reveal_uncovers b r c hwf.2.2.1 hin hcov
  have hTmine : ∀ q1 q2 : Int, Touched b (r, c) (q1, q2) →
      getO 0 b.mines q1 q2 = 0 := by
    intro q1 q2 ht
    rcases ht with heq | ⟨w, hw, hmem⟩
    · have e1 : q1 = r := congrArg Prod.fst heq
      have e2 : q2 = c := congrArg Prod.snd heq
      subst e1
      subst e2
      exact hmine
    · have hwe := reach_elem b (r, c) w hw
      exact (window_zero_mines b hwf w.1 w.2 hwe.1 hwe.2).2 (q1, q2) hmem
  have hreach_after : ∀ w, ReachZ b (r, c) w →
      getO 0 (reveal b r c).1.covered w.1 w.2 = 0 := by
    intro w hw
    apply closed_reach_uncovered (reveal b r c).1 hclafter (r, c) huncov w
    exact reach_congr b (reveal b r c).1 hst.2.1.symm hst.2.2.1.symm
      hst.2.2.2.1.symm (r, c) w hw
  have hcompl : ∀ q1 q2 : Int, inB b q1 q2 → Touched b (r, c) (q1, q2) →
      getO 0 (reveal b r c).1.covered q1 q2 = 0 := by
    intro q1 q2 hqin ht
    rcases ht with heq | ⟨w, hw, hmem⟩
    · have e1 : q1 = r := congrArg Prod.fst heq
      have e2 : q2 = c := congrArg Prod.snd heq
      subst e1
      subst e2
      exact huncov
    · have hwa := hreach_after w hw
      have hwe := reach_elem b (r, c) w hw
      obtain ⟨a0, a1, a2, a3⟩ := hwe.1
      have e1 : ((w.1.toNat : Nat) : Int) = w.1 := by omega
      have e2 : ((w.2.toNat : Nat) : Int) = w.2 := by omega
      have hqin' : inB (reveal b r c).1 q1 q2 := by
        unfold reveal inB
        rw [hst.2.2.1, hst.2.2.2.1]
        exact hqin
      have happ := hclafter w.1.toNat
        (by show w.1.toNat < (revealGo 0 (b.size0 * b.size1) b r c).1.size0
            rw [hst.2.2.1]; omega)
        w.2.toNat
        (by show w.2.toNat < (revealGo 0 (b.size0 * b.size1) b r c).1.size1
            rw [hst.2.2.2.1]; omega)
        (by rw [e1, e2]; exact hwa)
        (by rw [e1, e2]; show getO 0 (revealGo 0 (b.size0 * b.size1) b r c).1.board w.1 w.2 = 0
            rw [hst.2.1]; exact hwe.2)
        (q1, q2) (by rw [e1, e2]; exact hmem) hqin'
      rcases happ with h2 | h2
      · exact h2
      · exact absurd h2 (List.not_mem_nil _)
  refine ⟨⟨?_, ?_⟩, hTmine p1 p2, ?_, ?_⟩
  · intro h
    exact revealGo_sound (b.size0 * b.size1) b r c p1 p2 h
  · intro h
    rcases h with h | h
    · show getO 0 (revealGo 0 (b.size0 * b.size1) b r c).1.covered p1 p2 = 0
      rcases revealGo_cov 0 (b.size0 * b.size1) b r c 0 p1 p2 with hk | hk
      · rw [hk]
        exact h
      · exact hk
    · exact hcompl p1 p2 hpin h
  · intro hm
    show getO 0 (revealGo 0 (b.size0 * b.size1) b r c).1.covered p1 p2 = _
    rcases revealGo_cov 0 (b.size0 * b.size1) b r c 0 p1 p2 with hk | hk
    · exact hk
    · rcases revealGo_sound (b.size0 * b.size1) b r c p1 p2 hk with h0 | ht
      · rw [hk, h0]
      · exact absurd (hTmine p1 p2 ht) hm
  · intro ht hnr hz2
    apply hnr
    rcases ht with heq | ⟨w, hw, hmem⟩
    · have e1 : p1 = r := congrArg Prod.fst heq
      have e2 : p2 = c := congrArg Prod.snd heq
      subst e1
      subst e2
      exact ReachZ.refl hin hz
    · exact ReachZ.step w (p1, p2) hw hmem hpin hz2

theorem ones_grid_read (R C r c : Nat) (hr : r < R) (hc : c < C) :
    getO 0 ((List.range R).map (fun _ => (List.range C).map (fun _ => (1 : Int))))
      (r : Int) (c : Int) = 1 := by
  rw [getO_pos _ _ _ _ (by omega) (by omega)]
  rw [show ((r : Int)).toNat = r by omega, show ((c : Int)).toNat = c by omega]
  rw [getD_map_gen _ _ r 0 [] (by simpa using hr)]
  rw [getD_map_gen _ _ c 0 0 (by simpa using hc)]

theorem closed_init_board (rows cols : Nat) (data : List (List Int)) (b : Board)
    (h : initBoard rows cols data = some b) : Closed b := by
  obtain ⟨_, _, _, rfl⟩ := initBoard_some rows cols data b h
  intro r' hr' c' hc' hcov hz q hq hqin
  exfalso
  rw [ones_grid_read rows cols r' c' hr' hc'] at hcov
  exact one_ne_zero hcov

set_option maxRecDepth 10000 in
/-- Witness for C2: the cascade from `(0, 2)` on the 3x3 board with one
mine at `(0, 0)`. -/
theorem c2_cascade_witness :
    WF cexBoard ∧
    (∀ p1 p2 : Int, inB cexBoard p1 p2 →
      (getO 0 (reveal cexBoard 0 2).1.covered p1 p2 = 0 ↔
        (getO 0 cexBoard.covered p1 p2 = 0 ∨ Touched cexBoard (0, 2) (p1, p2))) ∧
      (Touched cexBoard (0, 2) (p1, p2) → getO 0 cexBoard.mines p1 p2 = 0) ∧
      (getO 0 cexBoard.mines p1 p2 ≠ 0 →
        getO 0 (reveal cexBoard 0 2).1.covered p1 p2 = getO 0 cexBoard.covered p1 p2) ∧
      (Touched cexBoard (0, 2) (p1, p2) → ¬ ReachZ cexBoard (0, 2) (p1, p2) →
        getO 0 cexBoard.board p1 p2 ≠ 0)) :=
  ⟨by decide, c2_cascade cexBoard 0 2 (by decide) (by decide) (by decide) (by decide)
    (by decide) (by decide)⟩
